import Mathlib

/-!
Verification of the Ethereum ABI encoding/decoding engine of this repository
(`abi/enc`): the tagged value model (`token.rs`), the runtime type-descriptor
enum (`ParamType`), the head/tail encoder (`encoder.rs`), the offset-driven
recursive decoder with its lenient and validating modes (`decoder.rs`), and
the compile-time descriptor system (`param_type/sol_type.rs`).

Bytes are modelled as `Nat` (a `u8` value), byte buffers as `List Nat`, and an
EVM word (`B256`) as a `List Nat` of length 32 (the length invariant is kept
by construction and carried in hypotheses where needed).  `Vec<Token>` and
`Vec<ParamType>` are modelled by the mutually inductive list types
`TokenList` / `ParamTypeList` so that all recursions over the token and
descriptor trees are structural (and hence computable by the kernel).
Fallible Rust functions returning `Result<T, Error>` are modelled as
`Except Error T`.
-/

/-- Alias for `Bool`, needed in signatures of `ParamType.*` functions where
the `ParamType.Bool` constructor would otherwise shadow the `Bool` type. -/
abbrev Boolean := Bool

/-! ## Value model: `Token` (token.rs) -/

mutual

/-- Ethereum ABI params (token.rs): single word, tuple or fixed array,
dynamic array, and string/bytes payloads. -/
inductive Token where
  | Word (w : List Nat)
  | FixedSeq (ts : TokenList)
  | DynSeq (ts : TokenList)
  | PackedSeq (bs : List Nat)

/-- `Vec<Token>`, as a mutually inductive list so recursion stays structural. -/
inductive TokenList where
  | nil
  | cons (t : Token) (ts : TokenList)

end

/-- Number of elements of a `TokenList` (`Vec::len`). -/
def TokenList.length : TokenList → Nat
  | .nil => 0
  | .cons _ ts => ts.length + 1

/-- View a `TokenList` as an ordinary `List Token`. -/
def TokenList.toList : TokenList → List Token
  | .nil => []
  | .cons t ts => t :: ts.toList

/-! ## Type descriptors: `ParamType` (the runtime enum of `param_type`) -/

mutual

/-- The runtime type-descriptor enum `ParamType`.  Its variants are exactly
those matched exhaustively by `decode_param` in decoder.rs: Address, Int,
Uint, Bool, FixedBytes, Bytes, String, Array, FixedArray and Tuple. -/
inductive ParamType where
  | Address
  | Int (n : Nat)
  | Uint (n : Nat)
  | Bool
  | FixedBytes (n : Nat)
  | Bytes
  | String
  | Array (t : ParamType)
  | FixedArray (t : ParamType) (n : Nat)
  | Tuple (ts : ParamTypeList)

/-- `Vec<ParamType>`, as a mutually inductive list. -/
inductive ParamTypeList where
  | nil
  | cons (t : ParamType) (ts : ParamTypeList)

end

/-- Number of elements of a `ParamTypeList` (`Vec::len`). -/
def ParamTypeList.length : ParamTypeList → Nat
  | .nil => 0
  | .cons _ ts => ts.length + 1

/-- View a `ParamTypeList` as an ordinary `List ParamType`. -/
def ParamTypeList.toList : ParamTypeList → List ParamType
  | .nil => []
  | .cons t ts => t :: ts.toList

/-- Whether every element of the list satisfies `f` (`Iterator::all`). -/
def ParamTypeList.all (f : ParamType → Bool) : ParamTypeList → Bool
  | .nil => true
  | .cons t ts => f t && ts.all f

mutual

/-- Modelled from the spec: `ParamType::is_dynamic` (the `param_type` module
defining the enum is not under `src/`; only `sol_type.rs` is).  Spec section 3:
Address, Bool, Int, Uint, FixedBytes are static; Bytes, String, Array are
dynamic; `FixedArray(elem, n)` is dynamic iff `elem` is; `Tuple(fields)` is
dynamic iff any field is. -/
def ParamType.is_dynamic : ParamType → Boolean
  | .Bytes => true
  | .String => true
  | .Array _ => true
  | .FixedArray t _ => t.is_dynamic
  | .Tuple ts => ts.any_dynamic
  | _ => false

/-- Whether any element of the list is dynamic. -/
def ParamTypeList.any_dynamic : ParamTypeList → Boolean
  | .nil => false
  | .cons t ts => t.is_dynamic || ts.any_dynamic

end

/-- Modelled from the spec: `ParamType::is_empty_bytes_valid_encoding` (same
missing module).  Spec section 4.3: decoding empty input is an error unless
every requested top-level type is one whose valid encoding can legitimately
be zero bytes, and "only a fixed array of length zero qualifies structurally
as such; every other type requires at least one word". -/
def ParamType.is_empty_bytes_valid_encoding : ParamType → Boolean
  | .FixedArray _ 0 => true
  | _ => false

/-! ## Errors (errors.rs is not under `src/`; variants modelled from use) -/

/-- Modelled from the spec: the error enum of `errors.rs` (not under `src/`).
Spec section 7: a single taxonomy of `InvalidData` (malformed shape,
out-of-bounds offset/length, non-canonical padding, non-zero reserved bytes)
and a descriptive `InvalidName` used for the empty-input case. -/
inductive Error where
  | InvalidData
  | InvalidName (msg : String)
deriving DecidableEq

/-- The descriptive message built in `decode_impl` for empty input
(decoder.rs lines 46-52; paraphrased without apostrophes). -/
def empty_bytes_message : String :=
  "please ensure the contract and method you are calling exist! failed to decode empty bytes. if you are using jsonrpc this is likely due to jsonrpc returning 0x in case contract or method do not exist"

/-! ## token.rs: `type_check`, `types_check`, `is_dynamic` -/

mutual

/-- `Token::type_check` (token.rs): whether the token tree structurally
matches the given `ParamType`. -/
def Token.type_check (tok : Token) (param_type : ParamType) : Bool :=
  match param_type with
  | .Address => match tok with | .Word _ => true | _ => false
  | .Bytes => match tok with | .PackedSeq _ => true | _ => false
  | .Int _ => match tok with | .Word _ => true | _ => false
  | .Uint _ => match tok with | .Word _ => true | _ => false
  | .Bool => match tok with | .Word _ => true | _ => false
  | .String => match tok with | .PackedSeq _ => true | _ => false
  | .Array inner_param =>
    match tok with
    | .DynSeq inner_tokens => inner_tokens.all_check inner_param
    | _ => false
  | .FixedBytes _ => match tok with | .Word _ => true | _ => false
  | .FixedArray inner_param expected_size =>
    match tok with
    | .FixedSeq inner_tokens =>
      inner_tokens.length == expected_size && inner_tokens.all_check inner_param
    | _ => false
  | .Tuple param_types =>
    match tok with
    | .FixedSeq inner_tokens =>
      inner_tokens.length == param_types.length && inner_tokens.zip_check param_types
    | _ => false

/-- All elements type-check against one element descriptor
(the `iter().all` in the `Array` and `FixedArray` arms). -/
def TokenList.all_check : TokenList → ParamType → Bool
  | .nil, _ => true
  | .cons t ts, p => t.type_check p && ts.all_check p

/-- Pairwise type-check (the `zip(...).all(...)` of the `Tuple` arm; like
`zip` it stops at the shorter list, the caller checks lengths first). -/
def TokenList.zip_check : TokenList → ParamTypeList → Bool
  | .nil, _ => true
  | _, .nil => true
  | .cons t ts, .cons p ps => t.type_check p && ts.zip_check ps

end

/-- `Token::types_check` (token.rs): lengths match and each token checks
against the corresponding type. -/
def Token.types_check (tokens : TokenList) (param_types : ParamTypeList) : Bool :=
  param_types.length == tokens.length && tokens.zip_check param_types

mutual

/-- `Token::is_dynamic` (token.rs): `DynSeq` and `PackedSeq` are dynamic, a
`FixedSeq` is dynamic iff any element is, a `Word` is static. -/
def Token.is_dynamic : Token → Bool
  | .DynSeq _ => true
  | .PackedSeq _ => true
  | .FixedSeq tokens => tokens.any_dynamic
  | _ => false

/-- Whether any token of the list is dynamic (`iter().any`). -/
def TokenList.any_dynamic : TokenList → Bool
  | .nil => false
  | .cons t ts => t.is_dynamic || ts.any_dynamic

end

/-! ## decoder.rs -/

/-- `DecodeResult` (decoder.rs): a decoded token and the updated offset. -/
structure DecodeResult where
  token : Token
  new_offset : Nat

/-- `as_usize` (decoder.rs): the first 28 bytes of the word must be zero, the
last 4 are read big-endian. -/
def as_usize (slice : List Nat) : Except Error Nat :=
  if (slice.take 28).all (fun x => x == 0) then
    .ok ((slice.getD 28 0) <<< 24 + (slice.getD 29 0) <<< 16 +
      (slice.getD 30 0) <<< 8 + slice.getD 31 0)
  else
    .error .InvalidData

/-- `check_zeroes` (decoder.rs). -/
def check_zeroes (data : List Nat) : Except Error Unit :=
  if data.all (fun b => b == 0) then .ok () else .error .InvalidData

/-- `check_bool` (decoder.rs): the first 31 bytes must be zero. -/
def check_bool (slice : List Nat) : Except Error Unit :=
  check_zeroes (slice.take 31)

/-- `peek` (decoder.rs): bounds-checked read of `len` bytes at `offset`. -/
def peek (data : List Nat) (offset len : Nat) : Except Error (List Nat) :=
  if offset + len > data.length then .error .InvalidData
  else .ok ((data.drop offset).take len)

/-- `peek_32_bytes` (decoder.rs): read one word. -/
def peek_32_bytes (data : List Nat) (offset : Nat) : Except Error (List Nat) :=
  peek data offset 32

/-- `round_up_nearest_multiple` (decoder.rs). -/
def round_up_nearest_multiple (value padding : Nat) : Nat :=
  (value + padding - 1) / padding * padding

/-- `check_fixed_bytes` (decoder.rs): the all-zero word is always accepted;
otherwise bytes `len..32` must be zero, `len = 0` and `len > 32` are
rejected. -/
def check_fixed_bytes (word : List Nat) (len : Nat) : Except Error Unit :=
  if word == List.replicate 32 0 then .ok ()
  else if len == 0 then .error .InvalidData
  else if len ≤ 31 then check_zeroes (word.drop len)
  else if len == 32 then .ok ()
  else .error .InvalidData

/-- `take_bytes` (decoder.rs): in validating mode the padding up to the next
32-byte boundary must be in bounds and zero; in lenient mode only the `len`
bytes themselves must be in bounds. -/
def take_bytes (data : List Nat) (offset len : Nat) (validate : Bool) :
    Except Error (List Nat) :=
  if validate then
    let padded_len := round_up_nearest_multiple len 32
    if offset + padded_len > data.length then .error .InvalidData
    else do
      check_zeroes ((data.drop (offset + len)).take (padded_len - len))
      .ok ((data.drop offset).take len)
  else if offset + len > data.length then .error .InvalidData
  else .ok ((data.drop offset).take len)

/-- The element loop shared by the `Array` and `FixedArray` arms of
`decode_param` (`for _ in 0..len { decode_param(t, ...) }`), abstracted over
the single-element decoder so that `decode_param` below stays structurally
recursive on `ParamType`. -/
def decode_elems (f : List Nat → Nat → Except Error DecodeResult)
    (data : List Nat) (offset : Nat) : Nat → Except Error (TokenList × Nat)
  | 0 => .ok (.nil, offset)
  | n + 1 => do
    let res ← f data offset
    let rest ← decode_elems f data res.new_offset n
    .ok (.cons res.token rest.1, rest.2)

mutual

/-- `decode_param` (decoder.rs): decode one `ParamType` at `offset`. -/
def decode_param (param : ParamType) (data : List Nat) (offset : Nat)
    (validate : Bool) : Except Error DecodeResult :=
  match param with
  | .Address => do
    let slice ← peek_32_bytes data offset
    if validate then check_zeroes (slice.take 12) else pure ()
    .ok ⟨.Word slice, offset + 32⟩
  | .Int _ => do
    let slice ← peek_32_bytes data offset
    .ok ⟨.Word slice, offset + 32⟩
  | .Uint _ => do
    let slice ← peek_32_bytes data offset
    .ok ⟨.Word slice, offset + 32⟩
  | .Bool => do
    let word ← peek_32_bytes data offset
    check_bool word
    .ok ⟨.Word word, offset + 32⟩
  | .FixedBytes len => do
    let word ← peek_32_bytes data offset
    check_fixed_bytes word len
    .ok ⟨.Word word, offset + 32⟩
  | .Bytes => do
    let dynamic_offset ← as_usize (← peek_32_bytes data offset)
    let len ← as_usize (← peek_32_bytes data dynamic_offset)
    let bytes ← take_bytes data (dynamic_offset + 32) len validate
    .ok ⟨.PackedSeq bytes, offset + 32⟩
  | .String => do
    let dynamic_offset ← as_usize (← peek_32_bytes data offset)
    let len ← as_usize (← peek_32_bytes data dynamic_offset)
    let bytes ← take_bytes data (dynamic_offset + 32) len validate
    .ok ⟨.PackedSeq bytes, offset + 32⟩
  | .Array t => do
    let len_offset ← as_usize (← peek_32_bytes data offset)
    let len ← as_usize (← peek_32_bytes data len_offset)
    -- `&data[tail_offset..]`: in bounds because the peek at `len_offset`
    -- succeeded, hence `len_offset + 32 <= data.length`
    let tail := data.drop (len_offset + 32)
    let res ← decode_elems (fun d o => decode_param t d o validate) tail 0 len
    .ok ⟨.DynSeq res.1, offset + 32⟩
  | .FixedArray t len =>
    if (ParamType.FixedArray t len).is_dynamic then do
      let inner_offset ← as_usize (← peek_32_bytes data offset)
      if inner_offset > data.length then .error .InvalidData
      else do
        let res ← decode_elems (fun d o => decode_param t d o validate)
          (data.drop inner_offset) 0 len
        .ok ⟨.FixedSeq res.1, offset + 32⟩
    else do
      let res ← decode_elems (fun d o => decode_param t d o validate)
        data offset len
      .ok ⟨.FixedSeq res.1, res.2⟩
  | .Tuple ts =>
    if (ParamType.Tuple ts).is_dynamic then do
      let inner_offset ← as_usize (← peek_32_bytes data offset)
      if inner_offset > data.length then .error .InvalidData
      else do
        let res ← decode_seq ts (data.drop inner_offset) 0 validate
        .ok ⟨.FixedSeq res.1, offset + 32⟩
    else do
      let res ← decode_seq ts data offset validate
      .ok ⟨.FixedSeq res.1, res.2⟩

/-- The loop decoding a sequence of `ParamType`s while threading the offset:
used by the `Tuple` arm of `decode_param` and by `decode_impl`, whose loops
in decoder.rs are identical. -/
def decode_seq (ts : ParamTypeList) (data : List Nat) (offset : Nat)
    (validate : Bool) : Except Error (TokenList × Nat) :=
  match ts with
  | .nil => .ok (.nil, offset)
  | .cons p rest => do
    let res ← decode_param p data offset validate
    let more ← decode_seq rest data res.new_offset validate
    .ok (.cons res.token more.1, more.2)

end

/-- `decode_impl` (decoder.rs): reject empty input unless every type admits
an empty encoding, decode each type in sequence, and in validating mode
require the final offset to equal the buffer length. -/
def decode_impl (types : ParamTypeList) (data : List Nat) (validate : Bool) :
    Except Error (TokenList × Nat) :=
  if !(types.all ParamType.is_empty_bytes_valid_encoding) && data.isEmpty then
    .error (.InvalidName empty_bytes_message)
  else do
    let res ← decode_seq types data 0 validate
    if validate && res.2 != data.length then .error .InvalidData
    else .ok res

/-- `decode_validate` (decoder.rs): strict canonical-form decoding. -/
def decode_validate (types : ParamTypeList) (data : List Nat) :
    Except Error TokenList :=
  (decode_impl types data true).map (fun r => r.1)

/-- `decode` (decoder.rs): lenient decoding. -/
def decode (types : ParamTypeList) (data : List Nat) : Except Error TokenList :=
  (decode_impl types data false).map (fun r => r.1)

/-! ## encoder.rs -/

/-- Modelled from the spec: `util::pad_u32` (the `util` module is not under
`src/`).  The `u32` is stored big-endian in the last 4 bytes of a zero word
(`test_pad_u32` in encoder.rs: byte 31 holds the low byte); the `% 2 ^ 32`
models the `as u32` casts at its call sites. -/
def pad_u32 (n : Nat) : List Nat :=
  List.replicate 28 0 ++
    [n % 2 ^ 32 / 2 ^ 24, n % 2 ^ 32 / 2 ^ 16 % 256,
     n % 2 ^ 32 / 2 ^ 8 % 256, n % 2 ^ 32 % 256]

/-- `pad_bytes_len` (encoder.rs): number of words of an encoded byte string,
including the length word. -/
def pad_bytes_len (bytes : List Nat) : Nat :=
  (bytes.length + 31) / 32 + 1

/-- The loop body of `fixed_bytes_append` (encoder.rs): the counter is the
number of remaining words (`for i in 0..len`); each step emits the next (up
to) 32 bytes zero-padded to a full word, which agrees with the
`to_copy` computation of the source (32 for every chunk but the last, `bytes.len() % 32`
or 32 for the last). -/
def fixed_bytes_append_loop : Nat → List Nat → List (List Nat)
  | 0, _ => []
  | n + 1, bs =>
    (bs.take 32 ++ List.replicate (32 - (bs.take 32).length) 0) ::
      fixed_bytes_append_loop n (bs.drop 32)

/-- `fixed_bytes_append` (encoder.rs), as the list of words it appends. -/
def fixed_bytes_words (bytes : List Nat) : List (List Nat) :=
  fixed_bytes_append_loop ((bytes.length + 31) / 32) bytes

/-- `pad_bytes_append` (encoder.rs), as the list of words it appends: the
length word followed by the padded payload words. -/
def pad_bytes_words (bytes : List Nat) : List (List Nat) :=
  pad_u32 bytes.length :: fixed_bytes_words bytes

mutual

/-- `Mediate` (encoder.rs): the intermediate head/tail classification. -/
inductive Mediate where
  | Raw (len : Nat) (t : Token)
  | RawArray (ms : MediateList)
  | Prefixed (len : Nat) (t : Token)
  | PrefixedArray (ms : MediateList)
  | PrefixedArrayWithLength (ms : MediateList)

/-- `Vec<Mediate>`, as a mutually inductive list. -/
inductive MediateList where
  | nil
  | cons (m : Mediate) (ms : MediateList)

end

/-- Number of elements of a `MediateList` (`Vec::len`). -/
def MediateList.length : MediateList → Nat
  | .nil => 0
  | .cons _ ms => ms.length + 1

mutual

/-- `Mediate::head_len` (encoder.rs). -/
def Mediate.head_len : Mediate → Nat
  | .Raw len _ => 32 * len
  | .RawArray ms => ms.head_len_sum
  | .Prefixed _ _ => 32
  | .PrefixedArray _ => 32
  | .PrefixedArrayWithLength _ => 32

/-- Sum of the head lengths of a list of mediates (`map(head_len).sum()`). -/
def MediateList.head_len_sum : MediateList → Nat
  | .nil => 0
  | .cons m ms => m.head_len + ms.head_len_sum

end

mutual

/-- `Mediate::tail_len` (encoder.rs). -/
def Mediate.tail_len : Mediate → Nat
  | .Raw _ _ => 0
  | .RawArray _ => 0
  | .Prefixed len _ => 32 * len
  | .PrefixedArray ms => ms.head_tail_sum
  | .PrefixedArrayWithLength ms => 32 + ms.head_tail_sum

/-- `fold(acc + head_len + tail_len)` over a list of mediates. -/
def MediateList.head_tail_sum : MediateList → Nat
  | .nil => 0
  | .cons m ms => m.head_len + m.tail_len + ms.head_tail_sum

end

/-- `encode_token_append` (encoder.rs), as the list of words it appends.  On
`FixedSeq`/`DynSeq` the source panics ("Unhandled nested token"); that case
is unreachable from `encode` because `mediate_token` only places `Word` in
`Raw` and `PackedSeq` in `Prefixed`. -/
def encode_token_words : Token → List (List Nat)
  | .Word w => [w]
  | .PackedSeq bytes => pad_bytes_words bytes
  | _ => []

mutual

/-- `Mediate::head_append` (encoder.rs): raw mediates emit their words, all
prefixed mediates emit the single offset word `pad_u32 suffix_offset`. -/
def Mediate.head_append (m : Mediate) (suffix_offset : Nat) : List (List Nat) :=
  match m with
  | .Raw _ raw => encode_token_words raw
  | .RawArray ms => ms.head_append_all
  | .Prefixed _ _ => [pad_u32 suffix_offset]
  | .PrefixedArray _ => [pad_u32 suffix_offset]
  | .PrefixedArrayWithLength _ => [pad_u32 suffix_offset]

/-- The `RawArray` arm, where each nested mediate is head-appended with
suffix offset 0. -/
def MediateList.head_append_all : MediateList → List (List Nat)
  | .nil => []
  | .cons m ms => m.head_append 0 ++ ms.head_append_all

end

/-- The head-emitting loop of `encode_head_tail_append` (encoder.rs): the
running offset starts at the total head length and is advanced by each
tail length of each mediate. -/
def heads_from : MediateList → Nat → List (List Nat)
  | .nil, _ => []
  | .cons m ms, offset => m.head_append offset ++ heads_from ms (offset + m.tail_len)

mutual

/-- `Mediate::tail_append` (encoder.rs).  In the source the two array arms
call `encode_head_tail_append`; that call is inlined here (heads followed by
tails) to keep the recursion structural, and `encode_head_tail_append` below
is literally this inlined body. -/
def Mediate.tail_append : Mediate → List (List Nat)
  | .Raw _ _ => []
  | .RawArray _ => []
  | .Prefixed _ raw => encode_token_words raw
  | .PrefixedArray ms => heads_from ms ms.head_len_sum ++ ms.tails_all
  | .PrefixedArrayWithLength ms =>
    pad_u32 ms.length :: (heads_from ms ms.head_len_sum ++ ms.tails_all)

/-- Concatenation of all tails (`for_each(tail_append)`). -/
def MediateList.tails_all : MediateList → List (List Nat)
  | .nil => []
  | .cons m ms => m.tail_append ++ ms.tails_all

end

/-- `encode_head_tail_append` (encoder.rs): all heads (with the running
offset starting at the total head length), then all tails. -/
def encode_head_tail_append (ms : MediateList) : List (List Nat) :=
  heads_from ms ms.head_len_sum ++ ms.tails_all

/-- `encode_head_tail` (encoder.rs); the capacity precomputation of the
source only sizes the allocation. -/
def encode_head_tail (ms : MediateList) : List (List Nat) :=
  encode_head_tail_append ms

mutual

/-- `mediate_token` (encoder.rs): classify a token into its mediate. -/
def mediate_token : Token → Mediate
  | .Word w => .Raw 1 (.Word w)
  | .FixedSeq tokens =>
    if (Token.FixedSeq tokens).is_dynamic then .PrefixedArray (mediate_list tokens)
    else .RawArray (mediate_list tokens)
  | .DynSeq tokens => .PrefixedArrayWithLength (mediate_list tokens)
  | .PackedSeq seq => .Prefixed (pad_bytes_len seq) (.PackedSeq seq)

/-- `tokens.iter().map(mediate_token).collect()`. -/
def mediate_list : TokenList → MediateList
  | .nil => .nil
  | .cons t ts => .cons (mediate_token t) (mediate_list ts)

end

/-- `encode` (encoder.rs): mediate every token, run the head/tail encoder,
and flatten the words into bytes. -/
def encode (tokens : TokenList) : List Nat :=
  (encode_head_tail (mediate_list tokens)).flatten

/-! ## param_type/sol_type.rs: the compile-time descriptors used by claims -/

/-- `Bool::type_check` (sol_type.rs): a word accepted by `check_bool`. -/
def SolBool.type_check : Token → Bool
  | .Word word => match check_bool word with | .ok _ => true | .error _ => false
  | _ => false

/-- `Bool::detokenize` (sol_type.rs): `Ok(word[31] < 2)` on any word token,
`InvalidData` otherwise. -/
def SolBool.detokenize : Token → Except Error Bool
  | .Word word => .ok (decide (word.getD 31 0 < 2))
  | _ => .error .InvalidData

/-- `Bool::tokenize` (sol_type.rs): a zero word with `rust as u8` in the
last byte. -/
def SolBool.tokenize (rust : Bool) : Token :=
  .Word (List.replicate 31 0 ++ [if rust then 1 else 0])

/-- A continuation byte `0x80..=0xBF` of a UTF-8 sequence. -/
def utf8_cont (b : Nat) : Bool := 0x80 ≤ b && b ≤ 0xBF

/-- Modelled from the spec: validity of a byte sequence as UTF-8, as decided
by `std::str::from_utf8` (external standard-library code used by
`String::type_check` in sol_type.rs), following the standard UTF-8 byte
ranges including the overlong/surrogate/out-of-range exclusions. -/
def utf8_valid : List Nat → Bool
  | [] => true
  | b :: rest =>
    if b ≤ 0x7F then utf8_valid rest
    else if 0xC2 ≤ b && b ≤ 0xDF then
      match rest with
      | c1 :: r => utf8_cont c1 && utf8_valid r
      | _ => false
    else if b == 0xE0 then
      match rest with
      | c1 :: c2 :: r => (0xA0 ≤ c1 && c1 ≤ 0xBF) && utf8_cont c2 && utf8_valid r
      | _ => false
    else if b == 0xED then
      match rest with
      | c1 :: c2 :: r => (0x80 ≤ c1 && c1 ≤ 0x9F) && utf8_cont c2 && utf8_valid r
      | _ => false
    else if 0xE1 ≤ b && b ≤ 0xEF then
      match rest with
      | c1 :: c2 :: r => utf8_cont c1 && utf8_cont c2 && utf8_valid r
      | _ => false
    else if b == 0xF0 then
      match rest with
      | c1 :: c2 :: c3 :: r =>
        (0x90 ≤ c1 && c1 ≤ 0xBF) && utf8_cont c2 && utf8_cont c3 && utf8_valid r
      | _ => false
    else if 0xF1 ≤ b && b ≤ 0xF3 then
      match rest with
      | c1 :: c2 :: c3 :: r => utf8_cont c1 && utf8_cont c2 && utf8_cont c3 && utf8_valid r
      | _ => false
    else if b == 0xF4 then
      match rest with
      | c1 :: c2 :: c3 :: r =>
        (0x80 ≤ c1 && c1 ≤ 0x8F) && utf8_cont c2 && utf8_cont c3 && utf8_valid r
      | _ => false
    else false

/-- `String::type_check` (sol_type.rs): a packed sequence whose bytes are
valid UTF-8 (`std::str::from_utf8(bytes).is_ok()`). -/
def SolString.type_check : Token → Bool
  | .PackedSeq bytes => utf8_valid bytes
  | _ => false

mutual

/-- The closed set of compile-time descriptor types of sol_type.rs: Address,
Bool, Int, Uint, FixedBytes, Bytes, String, Function, Array, FixedArray and
tuples. -/
inductive SolTy where
  | address
  | bool
  | int (bits : Nat)
  | uint (bits : Nat)
  | fixedBytes (n : Nat)
  | bytes
  | string
  | function
  | array (t : SolTy)
  | fixedArray (t : SolTy) (n : Nat)
  | tuple (ts : SolTyList)

/-- A list of descriptor types (the fields of a tuple). -/
inductive SolTyList where
  | nil
  | cons (t : SolTy) (ts : SolTyList)

end

/-- View a `SolTyList` as an ordinary `List SolTy`. -/
def SolTyList.toList : SolTyList → List SolTy
  | .nil => []
  | .cons t ts => t :: ts.toList

mutual

/-- `SolType::is_dynamic` of each impl in sol_type.rs: `false` for Address,
Bool, Int, Uint, FixedBytes and Function; `true` for Bytes, String and
Array; `T::is_dynamic()` for `FixedArray<T, N>`; for tuples the macro
returns `true` if any field is dynamic and `false` otherwise. -/
def SolTy.is_dynamic : SolTy → Bool
  | .bytes => true
  | .string => true
  | .array _ => true
  | .fixedArray t _ => t.is_dynamic
  | .tuple ts => ts.any_dynamic
  | _ => false

/-- Whether any field of the list is dynamic. -/
def SolTyList.any_dynamic : SolTyList → Bool
  | .nil => false
  | .cons t ts => t.is_dynamic || ts.any_dynamic

end

/-! ## Specification-side reference definitions -/

mutual

/-- Reference definition following the spec words for `type_check` (spec
section 4.1): numeric/address/bool/fixed-bytes descriptors require `Word`;
`Bytes`/`String` require `PackedSeq`; `Array` requires `DynSeq` whose every
element matches the element descriptor; `FixedArray`/`Tuple` require
`FixedSeq` of the exact expected arity whose elements match pairwise. -/
def spec_structural_match : ParamType → Token → Bool
  | .Address, .Word _ => true
  | .Int _, .Word _ => true
  | .Uint _, .Word _ => true
  | .Bool, .Word _ => true
  | .FixedBytes _, .Word _ => true
  | .Bytes, .PackedSeq _ => true
  | .String, .PackedSeq _ => true
  | .Array t, .DynSeq ts => spec_match_uniform t ts
  | .FixedArray t n, .FixedSeq ts => ts.length == n && spec_match_uniform t ts
  | .Tuple ps, .FixedSeq ts => spec_match_pairs ps ts
  | _, _ => false

/-- Every element matches the one element descriptor. -/
def spec_match_uniform : ParamType → TokenList → Bool
  | _, .nil => true
  | t, .cons tok toks => spec_structural_match t tok && spec_match_uniform t toks

/-- Exact arity and pairwise matching. -/
def spec_match_pairs : ParamTypeList → TokenList → Bool
  | .nil, .nil => true
  | .cons p ps, .cons t ts => spec_structural_match p t && spec_match_pairs ps ts
  | _, _ => false

end

/-- Big-endian numeric value of a word (to state what a word "holds"). -/
def word_nat (w : List Nat) : Nat :=
  w.foldl (fun acc b => acc * 256 + b) 0

/-! ## Further proof-side definitions used by the claim theorems -/

/-- The bytes of the string "gavofyork" used throughout the repo tests. -/
def gav_bytes : List Nat := [0x67, 0x61, 0x76, 0x6f, 0x66, 0x79, 0x6f, 0x72, 0x6b]

/-- An address word with the given byte repeated in the low 20 bytes. -/
def addr_word (b : Nat) : List Nat := List.replicate 12 0 ++ List.replicate 20 b

/-- The corrupted buffer of the scenario: a 4-word buffer for
`Array<Uint<32>>` whose declared length word is 0xffffffff. -/
def corrupt_array_buffer : List Nat :=
  pad_u32 0x20 ++ pad_u32 0xffffffff ++ pad_u32 1 ++ pad_u32 2

mutual

/-- Well-formed token trees: every `Word` payload is exactly 32 bytes (the
`B256` invariant of the source). -/
def Token.words_wf : Token → Bool
  | .Word w => w.length == 32
  | .FixedSeq ts => ts.words_wf
  | .DynSeq ts => ts.words_wf
  | .PackedSeq _ => true

/-- Well-formedness of every token in the list. -/
def TokenList.words_wf : TokenList → Bool
  | .nil => true
  | .cons t ts => t.words_wf && ts.words_wf

end

/-- Whether an `Except` is `ok`. -/
def except_is_ok {ε α : Type} : Except ε α → Bool
  | .ok _ => true
  | .error _ => false

mutual

/-- Tokens that match a static type shape and whose words pass every check
the decoder applies in validating mode: 32-byte words, zero address high
bytes, zero boolean prefix, fixed-bytes padding accepted by
`check_fixed_bytes`, and recursively static sequences of the exact arity. -/
def static_wf : ParamType → Token → Bool
  | .Address, .Word w => w.length == 32 && (w.take 12).all (fun x => x == 0)
  | .Int _, .Word w => w.length == 32
  | .Uint _, .Word w => w.length == 32
  | .Bool, .Word w => w.length == 32 && (w.take 31).all (fun x => x == 0)
  | .FixedBytes n, .Word w => w.length == 32 && except_is_ok (check_fixed_bytes w n)
  | .FixedArray t n, .FixedSeq ts =>
    !t.is_dynamic && (ts.length == n) && static_wf_uniform t ts
  | .Tuple ps, .FixedSeq ts => !ps.any_dynamic && static_wf_pairs ps ts
  | _, _ => false

/-- Every element is static and well-formed for the one element type. -/
def static_wf_uniform : ParamType → TokenList → Bool
  | _, .nil => true
  | t, .cons tok toks => static_wf t tok && static_wf_uniform t toks

/-- Pairwise static well-formedness with exact arity. -/
def static_wf_pairs : ParamTypeList → TokenList → Bool
  | .nil, .nil => true
  | .cons p ps, .cons t ts => static_wf p t && static_wf_pairs ps ts
  | _, _ => false

end

mutual

/-- The raw words of a static token tree, flattened to bytes. -/
def static_words : Token → List Nat
  | .Word w => w
  | .FixedSeq ts => static_words_list ts
  | _ => []

/-- The raw words of a static token list, flattened to bytes. -/
def static_words_list : TokenList → List Nat
  | .nil => []
  | .cons t ts => static_words t ++ static_words_list ts

end

/-! ## Theorems -/

/-! ## Sanity checks against the test vectors of the repository -/


example : encode (.cons (SolBool.tokenize true) .nil) = pad_u32 1 := by rfl

example : encode (.cons (.Word (addr_word 0x11)) .nil) = addr_word 0x11 := by rfl

example :
    encode (.cons (.FixedSeq (.cons (.PackedSeq gav_bytes)
        (.cons (.PackedSeq gav_bytes) .nil))) .nil) =
      (pad_u32 0x20 ++ pad_u32 0x40 ++ pad_u32 0x80 ++
        pad_u32 9 ++ (gav_bytes ++ List.replicate 23 0) ++
        pad_u32 9 ++ (gav_bytes ++ List.replicate 23 0)) := by rfl

set_option maxRecDepth 40000 in
example :
    decode (.cons (.Tuple (.cons .String (.cons .String .nil))) .nil)
      (pad_u32 0x20 ++ pad_u32 0x40 ++ pad_u32 0x80 ++
        pad_u32 9 ++ (gav_bytes ++ List.replicate 23 0) ++
        pad_u32 9 ++ (gav_bytes ++ List.replicate 23 0)) =
      .ok (.cons (.FixedSeq (.cons (.PackedSeq gav_bytes)
        (.cons (.PackedSeq gav_bytes) .nil))) .nil) := by rfl

example : decode (.cons (.FixedArray .Bool 0) .nil) [] =
    .ok (.cons (.FixedSeq .nil) .nil) := by rfl

/-! ## Claim C2 -/

/-- Claim C2: the round-trip `D.detokenize(D.tokenize(v)) == v` FAILS for the
Bool descriptor at `v = false`: `Bool::detokenize` returns `Ok(word[31] < 2)`
(sol_type.rs line 330), so the zero word produced by `tokenize(false)`
detokenizes to `true`.  The encode/decode half of the claim does hold for
both booleans (second and third conjuncts). -/
theorem C2_bool_roundtrip_bug :
    SolBool.detokenize (SolBool.tokenize false) = .ok true ∧
    decode (.cons .Bool .nil) (encode (.cons (SolBool.tokenize false) .nil)) =
      .ok (.cons (SolBool.tokenize false) .nil) ∧
    decode (.cons .Bool .nil) (encode (.cons (SolBool.tokenize true) .nil)) =
      .ok (.cons (SolBool.tokenize true) .nil) := by
  refine ⟨rfl, ?_, ?_⟩ <;> rfl

/-! ## Claim C4 -/

/-- Claim C4: `Bool::detokenize` does NOT fail with `InvalidData` on word
tokens outside {0, 1}: it returns `Ok(word[31] < 2)`, so a word whose last
byte is 2 yields `Ok(false)`, a word with a non-zero byte outside the last
position yields `Ok(true)`, and even the all-zero word yields `Ok(true)`
instead of `Ok(false)`. -/
theorem C4_bool_detokenize_bug :
    SolBool.detokenize (.Word (List.replicate 31 0 ++ [2])) = .ok false ∧
    SolBool.detokenize (.Word (1 :: List.replicate 31 0)) = .ok true ∧
    SolBool.detokenize (.Word (List.replicate 32 0)) = .ok true := by
  refine ⟨rfl, rfl, rfl⟩

/-! ## Claim C9 -/

/-- `any_dynamic` agrees with `List.any` over the field list. -/
theorem SolTyList.any_dynamic_eq_toList_any :
    (ts : SolTyList) → ts.any_dynamic = ts.toList.any SolTy.is_dynamic
  | .nil => rfl
  | .cons t ts => by
    simp [SolTyList.any_dynamic, SolTyList.toList, any_dynamic_eq_toList_any ts]

/-- Claim C9: dynamism of the compile-time descriptors (sol_type.rs) is
structural and compositional: `FixedArray<T, N>` is dynamic iff `T` is, a
tuple is dynamic iff some field is, `Bytes`/`String`/`Array` are always
dynamic, and `Address`/`Bool`/`Int`/`Uint`/`FixedBytes`/`Function` are always
static. -/
theorem C9_dynamism_composition :
    (∀ (t : SolTy) (n : Nat), (SolTy.fixedArray t n).is_dynamic = t.is_dynamic) ∧
    (∀ ts : SolTyList,
      ((SolTy.tuple ts).is_dynamic = true ↔ ∃ t ∈ ts.toList, t.is_dynamic = true)) ∧
    SolTy.bytes.is_dynamic = true ∧
    SolTy.string.is_dynamic = true ∧
    (∀ t : SolTy, (SolTy.array t).is_dynamic = true) ∧
    SolTy.address.is_dynamic = false ∧
    SolTy.bool.is_dynamic = false ∧
    (∀ n, (SolTy.int n).is_dynamic = false) ∧
    (∀ n, (SolTy.uint n).is_dynamic = false) ∧
    (∀ n, (SolTy.fixedBytes n).is_dynamic = false) ∧
    SolTy.function.is_dynamic = false := by
  refine ⟨fun t n => rfl, fun ts => ?_, rfl, rfl, fun t => rfl, rfl, rfl,
    fun n => rfl, fun n => rfl, fun n => rfl, rfl⟩
  rw [show (SolTy.tuple ts).is_dynamic = ts.any_dynamic from rfl,
    SolTyList.any_dynamic_eq_toList_any, List.any_eq_true]

/-! ## Claim C10 -/

/-- Claim C10: decoding an empty buffer is an error unless every requested
top-level type can have a legitimately empty encoding (only a zero-length
fixed array qualifies, per `is_empty_bytes_valid_encoding`); the error is the
descriptive `InvalidName`, distinct from `InvalidData`.  Holds for both
decoding modes. -/
theorem C10_empty_input_error (types : ParamTypeList)
    (h : types.all ParamType.is_empty_bytes_valid_encoding = false) :
    decode types [] = .error (.InvalidName empty_bytes_message) ∧
    decode_validate types [] = .error (.InvalidName empty_bytes_message) ∧
    Error.InvalidName empty_bytes_message ≠ Error.InvalidData := by
  refine ⟨?_, ?_, by simp⟩ <;>
    simp [decode, decode_validate, decode_impl, h, Except.map]

/-- Witness for C10 at the concrete type list `[Address]`. -/
theorem C10_witness :
    (ParamTypeList.cons .Address .nil).all ParamType.is_empty_bytes_valid_encoding
      = false ∧
    decode (.cons .Address .nil) [] = .error (.InvalidName empty_bytes_message) :=
  ⟨by rfl, (C10_empty_input_error (.cons .Address .nil) (by rfl)).1⟩

/-! ## Claim C5 -/


set_option maxRecDepth 400000 in
/-- Claim C5: overflow-safe bounds checking.  A length/offset word with any
non-zero byte among its first 28 is rejected by `as_usize`; a read past the
end of the buffer is rejected by `peek` and by `take_bytes` (in both its
validating and lenient branches); and decoding the corrupted
`Array<Uint<32>>` scenario buffer fails with `InvalidData` in both modes. -/
theorem C5_offset_overflow_safety :
    (∀ w : List Nat, (w.take 28).all (fun x => x == 0) = false →
      as_usize w = .error .InvalidData) ∧
    (∀ (data : List Nat) (offset len : Nat), offset + len > data.length →
      peek data offset len = .error .InvalidData) ∧
    (∀ (data : List Nat) (offset len : Nat),
      offset + round_up_nearest_multiple len 32 > data.length →
      take_bytes data offset len true = .error .InvalidData) ∧
    (∀ (data : List Nat) (offset len : Nat), offset + len > data.length →
      take_bytes data offset len false = .error .InvalidData) ∧
    decode (.cons (.Array (.Uint 32)) .nil) corrupt_array_buffer =
      .error .InvalidData ∧
    decode_validate (.cons (.Array (.Uint 32)) .nil) corrupt_array_buffer =
      .error .InvalidData := by
  refine ⟨fun w h => ?_, fun data offset len h => ?_, fun data offset len h => ?_,
    fun data offset len h => ?_, ?_, ?_⟩
  · simp [as_usize, h]
  · simp [peek, h]
  · simp [take_bytes, h]
  · simp [take_bytes, h]
  · rfl
  · rfl

/-- Witness for C5: the universally quantified safety statements evaluated at
concrete inputs (a word with a non-zero byte among its first 28; a 3-byte
buffer read at offset 2 with length 2; `take_bytes` past the end in both
modes). -/
theorem C5_witness :
    (((List.replicate 32 1).take 28).all (fun x => x == 0) = false ∧
      as_usize (List.replicate 32 1) = .error .InvalidData) ∧
    ((2 + 2 > [7, 7, 7].length) ∧ peek [7, 7, 7] 2 2 = .error .InvalidData) ∧
    ((0 + round_up_nearest_multiple 1 32 > [7].length) ∧
      take_bytes [7] 0 1 true = .error .InvalidData) ∧
    ((2 + 2 > [7, 7, 7].length) ∧ take_bytes [7, 7, 7] 2 2 false = .error .InvalidData) :=
  ⟨⟨by rfl, C5_offset_overflow_safety.1 _ (by rfl)⟩,
   ⟨by decide, C5_offset_overflow_safety.2.1 _ _ _ (by decide)⟩,
   ⟨by decide, C5_offset_overflow_safety.2.2.1 _ _ _ (by decide)⟩,
   ⟨by decide, C5_offset_overflow_safety.2.2.2.1 _ _ _ (by decide)⟩⟩

/-! ## Helper reduction lemmas for `Except` -/

@[simp]
theorem except_ok_bind {ε α β : Type} (a : α) (f : α → Except ε β) :
    (Except.ok a : Except ε α) >>= f = f a := rfl

@[simp]
theorem except_error_bind {ε α β : Type} (e : ε) (f : α → Except ε β) :
    (Except.error e : Except ε α) >>= f = Except.error e := rfl

@[simp]
theorem except_map_ok {ε α β : Type} (f : α → β) (a : α) :
    (Except.ok a : Except ε α).map f = Except.ok (f a) := rfl

@[simp]
theorem except_map_error {ε α β : Type} (f : α → β) (e : ε) :
    (Except.error e : Except ε α).map f = Except.error e := rfl

@[simp]
theorem except_pure {ε α : Type} (a : α) :
    (pure a : Except ε α) = Except.ok a := rfl

/-! ## Claim C3 -/

/-- Claim C3 counterexample: a 32-byte buffer whose first byte is non-zero
(so the high 12 bytes of the address word are not all zero).  Lenient
`decode` SUCCEEDS on it — the high-bytes check of the `Address` arm runs only
under `if validate` (decoder.rs lines 144-146) — while `decode_validate`
fails; the claim asserts both fail. -/
theorem C3_counterexample :
    decode (.cons .Address .nil) (1 :: List.replicate 31 0) =
      .ok (.cons (.Word (1 :: List.replicate 31 0)) .nil) ∧
    decode_validate (.cons .Address .nil) (1 :: List.replicate 31 0) =
      .error .InvalidData := by
  refine ⟨rfl, rfl⟩

/-- Claim C3 as amended: for every 32-byte buffer whose first word has a
non-zero byte among its first 12, the address high-bytes check applies only
in validating mode: `decode` succeeds returning the word unchecked, and
`decode_validate` fails with `InvalidData`. -/
theorem C3_address_check_validating_only (w : List Nat) (hlen : w.length = 32)
    (hnz : (w.take 12).all (fun x => x == 0) = false) :
    decode (.cons .Address .nil) w = .ok (.cons (.Word w) .nil) ∧
    decode_validate (.cons .Address .nil) w = .error .InvalidData := by
  have hw : w.take 32 = w := List.take_of_length_le (le_of_eq hlen)
  have hne : w.isEmpty = false := by
    cases w with
    | nil => simp at hlen
    | cons a l => rfl
  have hpeek : peek_32_bytes w 0 = .ok w := by
    simp [peek_32_bytes, peek, hlen, hw]
  have hcz : check_zeroes (w.take 12) = .error .InvalidData := by
    simp [check_zeroes, hnz]
  constructor <;>
    simp [decode, decode_validate, decode_impl, decode_seq, decode_param,
      hpeek, hcz, hlen, hne]

/-- Witness for the amended C3 at a word whose twelfth byte is non-zero. -/
theorem C3_witness :
    ((List.replicate 11 0 ++ 5 :: List.replicate 20 0).length = 32 ∧
      ((List.replicate 11 0 ++ 5 :: List.replicate 20 0).take 12).all
        (fun x => x == 0) = false) ∧
    decode (.cons .Address .nil) (List.replicate 11 0 ++ 5 :: List.replicate 20 0) =
      .ok (.cons (.Word (List.replicate 11 0 ++ 5 :: List.replicate 20 0)) .nil) ∧
    decode_validate (.cons .Address .nil)
      (List.replicate 11 0 ++ 5 :: List.replicate 20 0) = .error .InvalidData :=
  ⟨⟨by decide, by decide⟩,
    C3_address_check_validating_only _ (by decide) (by decide)⟩

/-! ## Claim C6 -/

mutual

/-- `Token::type_check` agrees with the purely structural matcher written
from the spec words. -/
theorem Token.type_check_eq_spec :
    (tok : Token) → (p : ParamType) → tok.type_check p = spec_structural_match p tok
  | .Word w, p => by cases p <;> rfl
  | .PackedSeq bs, p => by cases p <;> rfl
  | .DynSeq ts, p => by
    cases p <;>
      simp [Token.type_check, spec_structural_match, TokenList.all_check_eq_spec ts]
  | .FixedSeq ts, p => by
    cases p <;>
      simp [Token.type_check, spec_structural_match, TokenList.all_check_eq_spec ts,
        TokenList.zip_check_len_eq_spec ts]

/-- `all_check` agrees with the spec-side uniform matcher. -/
theorem TokenList.all_check_eq_spec :
    (ts : TokenList) → (p : ParamType) → ts.all_check p = spec_match_uniform p ts
  | .nil, p => rfl
  | .cons t ts, p => by
    simp [TokenList.all_check, spec_match_uniform, Token.type_check_eq_spec t p,
      TokenList.all_check_eq_spec ts p]

/-- The length check of the source plus truncating zip agrees with the spec-side
exact-arity pairwise matcher. -/
theorem TokenList.zip_check_len_eq_spec :
    (ts : TokenList) → (ps : ParamTypeList) →
      (ts.length == ps.length && ts.zip_check ps) = spec_match_pairs ps ts
  | .nil, .nil => rfl
  | .nil, .cons p ps => rfl
  | .cons t ts, .nil => rfl
  | .cons t ts, .cons p ps => by
    have h1 := Token.type_check_eq_spec t p
    have h2 := TokenList.zip_check_len_eq_spec ts ps
    simp only [TokenList.zip_check, spec_match_pairs, TokenList.length,
      ParamTypeList.length]
    rw [show (ts.length + 1 == ps.length + 1) = (ts.length == ps.length) by
      simp, ← h2, h1]
    cases spec_structural_match p t <;> cases ts.length == ps.length <;>
      cases ts.zip_check ps <;> rfl

end

/-- Claim C6 as amended: for the runtime `ParamType` system, `type_check` is
purely structural exactly as the claim states (first conjunct).  The
compile-time SolType descriptors deviate by also validating content: Bool
accepts a `Word` only when its first 31 bytes are zero (second conjunct),
and String rejects a `PackedSeq` holding invalid UTF-8 (third conjunct). -/
theorem C6_type_check_structural :
    (∀ (tok : Token) (p : ParamType), tok.type_check p = spec_structural_match p tok) ∧
    (∀ w : List Nat, SolBool.type_check (.Word w) = (w.take 31).all (fun b => b == 0)) ∧
    SolString.type_check (.PackedSeq [0xe4, 0xb8, 0x8d, 0xe5]) = false := by
  refine ⟨Token.type_check_eq_spec, fun w => ?_, rfl⟩
  by_cases h : (w.take 31).all (fun b => b == 0) = true <;>
    simp [SolBool.type_check, check_bool, check_zeroes, h]

/-- Claim C6 counterexample: the SolType Bool descriptor REJECTS a `Word`
token whose first byte is non-zero, although the token variant matches and
the runtime checker accepts it. -/
theorem C6_counterexample :
    SolBool.type_check (.Word (1 :: List.replicate 31 0)) = false ∧
    Token.type_check (.Word (1 :: List.replicate 31 0)) .Bool = true := by
  refine ⟨rfl, rfl⟩

/-! ## Claim C7 -/

/-- `word_nat` ignores leading zero bytes. -/
theorem word_nat_replicate_zero_append (k : Nat) (l : List Nat) :
    word_nat (List.replicate k 0 ++ l) = word_nat l := by
  induction k with
  | zero => rfl
  | succ n ih => simpa [word_nat, List.replicate_succ] using ih

/-- `pad_u32` stores `n % 2 ^ 32`; for `n < 2 ^ 32` the word holds exactly
`n`. -/
theorem word_nat_pad_u32 (n : Nat) (h : n < 2 ^ 32) :
    word_nat (pad_u32 n) = n := by
  have hm : n % 2 ^ 32 = n := Nat.mod_eq_of_lt h
  simp only [pad_u32, hm, word_nat_replicate_zero_append]
  simp only [word_nat, List.foldl]
  simp only [show (2 : Nat) ^ 24 = 16777216 from rfl,
    show (2 : Nat) ^ 16 = 65536 from rfl, show (2 : Nat) ^ 8 = 256 from rfl,
    show (2 : Nat) ^ 32 = 4294967296 from rfl] at h ⊢
  omega

/-- The padding loop always emits exactly as many words as its counter. -/
theorem fixed_bytes_append_loop_length (n : Nat) :
    ∀ bs : List Nat, (fixed_bytes_append_loop n bs).length = n := by
  induction n with
  | zero => intro bs; rfl
  | succ k ih => intro bs; simp [fixed_bytes_append_loop, ih]

/-- Every word emitted by the padding loop is exactly 32 bytes. -/
theorem fixed_bytes_append_loop_words (n : Nat) :
    ∀ bs : List Nat, ∀ w ∈ fixed_bytes_append_loop n bs, w.length = 32 := by
  induction n with
  | zero => intro bs w hw; simp [fixed_bytes_append_loop] at hw
  | succ k ih =>
    intro bs w hw
    simp only [fixed_bytes_append_loop, List.mem_cons] at hw
    rcases hw with h | h
    · have : (bs.take 32).length ≤ 32 := by
        simp [List.length_take]
      simp [h, this]
    · exact ih (bs.drop 32) w h

/-- Flattening the emitted words recovers the bytes followed by the zero
padding up to the 32-byte boundary, when the counter is the required number
of words. -/
theorem fixed_bytes_append_loop_flatten (n : Nat) :
    ∀ bs : List Nat, (bs.length + 31) / 32 = n →
      (fixed_bytes_append_loop n bs).flatten =
        bs ++ List.replicate (32 * n - bs.length) 0 := by
  induction n with
  | zero =>
    intro bs h
    have : bs.length = 0 := by omega
    rw [List.eq_nil_of_length_eq_zero this]
    rfl
  | succ k ih =>
    intro bs h
    by_cases hle : bs.length ≤ 32
    · have hk : k = 0 := by omega
      have h1 : bs.length ≥ 1 := by omega
      have htake : bs.take 32 = bs := List.take_of_length_le hle
      have hdrop : bs.drop 32 = [] := by
        apply List.eq_nil_of_length_eq_zero
        simp [List.length_drop]; omega
      subst hk
      simp [fixed_bytes_append_loop, htake, hdrop]
    · push_neg at hle
      have hdl : ((bs.drop 32).length + 31) / 32 = k := by
        simp [List.length_drop]; omega
      have harg : 32 * k - (bs.drop 32).length = 32 * (k + 1) - bs.length := by
        simp [List.length_drop]; omega
      have htl : (bs.take 32).length = 32 := by
        simp [List.length_take]; omega
      simp only [fixed_bytes_append_loop, List.flatten_cons, htl, Nat.sub_self,
        List.replicate_zero, List.append_nil, ih (bs.drop 32) hdl, harg,
        ← List.append_assoc, List.take_append_drop]

/-- Claim C7 as amended: for every byte sequence whose length L is below
`2 ^ 32` (the length word is built through an `as u32` cast), the encoder
emits exactly one length word holding L followed by `ceil(L / 32)` data
words of 32 bytes each, whose concatenation is the payload right-padded
with zero bytes to the 32-byte boundary; and these are exactly the words
the encoder appends for a `PackedSeq` token. -/
theorem C7_packed_seq_layout (bytes : List Nat) (h : bytes.length < 2 ^ 32) :
    pad_bytes_words bytes = pad_u32 bytes.length :: fixed_bytes_words bytes ∧
    word_nat (pad_u32 bytes.length) = bytes.length ∧
    (fixed_bytes_words bytes).length = (bytes.length + 31) / 32 ∧
    (∀ w ∈ fixed_bytes_words bytes, w.length = 32) ∧
    (fixed_bytes_words bytes).flatten =
      bytes ++ List.replicate (32 * ((bytes.length + 31) / 32) - bytes.length) 0 ∧
    encode_token_words (.PackedSeq bytes) = pad_bytes_words bytes ∧
    mediate_token (.PackedSeq bytes) =
      .Prefixed (pad_bytes_len bytes) (.PackedSeq bytes) :=
  ⟨rfl, word_nat_pad_u32 _ h, fixed_bytes_append_loop_length _ bytes,
    fixed_bytes_append_loop_words _ bytes,
    fixed_bytes_append_loop_flatten _ bytes rfl, rfl, rfl⟩

/-- Claim C7 counterexample: for a byte sequence of length `2 ^ 32` the
length word does NOT hold L — the `as u32` cast truncates it to 0 — so the
claim fails as stated for every L; it holds only below `2 ^ 32`. -/
theorem C7_counterexample :
    pad_bytes_words (List.replicate (2 ^ 32) 0) =
      pad_u32 (2 ^ 32) :: fixed_bytes_words (List.replicate (2 ^ 32) 0) ∧
    word_nat (pad_u32 (2 ^ 32)) = 0 ∧
    (2 ^ 32 : Nat) ≠ 0 := by
  refine ⟨?_, by decide, by norm_num⟩
  rw [show pad_bytes_words (List.replicate (2 ^ 32) (0 : Nat)) =
        pad_u32 (List.replicate (2 ^ 32) (0 : Nat)).length ::
          fixed_bytes_words (List.replicate (2 ^ 32) 0) from rfl,
      List.length_replicate]

/-- Witness for the amended C7 at the 3-byte payload `[1, 2, 3]`: one word
of padding arithmetic evaluated concretely. -/
theorem C7_witness :
    ([1, 2, 3] : List Nat).length < 2 ^ 32 ∧
    (pad_bytes_words [1, 2, 3] = pad_u32 3 :: fixed_bytes_words [1, 2, 3] ∧
      word_nat (pad_u32 3) = 3 ∧
      (fixed_bytes_words [1, 2, 3]).length = 1 ∧
      (∀ w ∈ fixed_bytes_words [1, 2, 3], w.length = 32) ∧
      (fixed_bytes_words [1, 2, 3]).flatten = [1, 2, 3] ++ List.replicate 29 0 ∧
      encode_token_words (.PackedSeq [1, 2, 3]) = pad_bytes_words [1, 2, 3] ∧
      mediate_token (.PackedSeq [1, 2, 3]) =
        .Prefixed (pad_bytes_len [1, 2, 3]) (.PackedSeq [1, 2, 3])) :=
  ⟨by decide, C7_packed_seq_layout [1, 2, 3] (by decide)⟩

/-! ## Claim C8: infrastructure -/

theorem except_bind_eq_ok {ε α β : Type} {x : Except ε α} {f : α → Except ε β}
    {b : β} : (x >>= f = Except.ok b) ↔ ∃ a, x = Except.ok a ∧ f a = Except.ok b := by
  cases x with
  | error e => simp
  | ok a => simp

theorem except_map_eq_ok {ε α β : Type} {x : Except ε α} {f : α → β} {b : β} :
    (x.map f = Except.ok b) ↔ ∃ a, x = Except.ok a ∧ f a = b := by
  cases x with
  | error e => simp
  | ok a => simp [eq_comm]

/-- A successful `peek` implies the read is in bounds. -/
theorem peek_ok_bound {data : List Nat} {off len : Nat} {out : List Nat}
    (h : peek data off len = .ok out) : off + len ≤ data.length := by
  by_cases hc : off + len > data.length
  · simp [peek, hc] at h
  · omega

/-- A successful `peek` returns the same bytes on an extended buffer. -/
theorem peek_extend {data : List Nat} (extra : List Nat) {off len : Nat}
    {out : List Nat} (h : peek data off len = .ok out) :
    peek (data ++ extra) off len = .ok out := by
  have hb := peek_ok_bound h
  have hnc : ¬ (off + len > data.length) := by omega
  rw [peek, if_neg hnc] at h
  have hnc2 : ¬ (off + len > (data ++ extra).length) := by
    simp [List.length_append]; omega
  rw [peek, if_neg hnc2, List.drop_append_of_le_length (by omega),
    List.take_append_of_le_length (by simp [List.length_drop]; omega)]
  exact h

/-- A successful lenient `take_bytes` returns the same bytes on an extended
buffer. -/
theorem take_bytes_extend {data : List Nat} (extra : List Nat) {off len : Nat}
    {out : List Nat} (h : take_bytes data off len false = .ok out) :
    take_bytes (data ++ extra) off len false = .ok out := by
  have hfalse : ∀ d : List Nat, take_bytes d off len false =
      if off + len > d.length then .error .InvalidData
      else .ok ((d.drop off).take len) := fun d => rfl
  rw [hfalse] at h
  by_cases hc : off + len > data.length
  · rw [if_pos hc] at h; cases h
  · rw [if_neg hc] at h
    have hnc2 : ¬ (off + len > (data ++ extra).length) := by
      simp [List.length_append]; omega
    rw [hfalse, if_neg hnc2, List.drop_append_of_le_length (by omega),
      List.take_append_of_le_length (by simp [List.length_drop]; omega)]
    exact h

/-- Every `pad_u32` word is exactly 32 bytes. -/
theorem pad_u32_length (n : Nat) : (pad_u32 n).length = 32 := rfl

/-- Every word of an encoded byte string is exactly 32 bytes. -/
theorem pad_bytes_words_length (bytes : List Nat) :
    ∀ w ∈ pad_bytes_words bytes, w.length = 32 := by
  intro w hw
  rcases List.mem_cons.1 hw with h | h
  · rw [h]; rfl
  · exact fixed_bytes_append_loop_words _ bytes w h


mutual

/-- Every head word emitted for a well-formed token is 32 bytes. -/
theorem Token.head_words_32 : (t : Token) → t.words_wf = true → (off : Nat) →
    ∀ x ∈ (mediate_token t).head_append off, x.length = 32
  | .Word w, hwf, off => by
    intro x hx
    simp only [mediate_token, Mediate.head_append, encode_token_words,
      List.mem_singleton] at hx
    simp only [Token.words_wf, beq_iff_eq] at hwf
    rw [hx]; exact hwf
  | .FixedSeq ts, hwf, off => by
    intro x hx
    simp only [mediate_token] at hx
    by_cases hd : (Token.FixedSeq ts).is_dynamic = true
    · simp only [hd, if_pos, Mediate.head_append, List.mem_singleton] at hx
      rw [hx]; rfl
    · rw [if_neg hd] at hx
      simp only [Mediate.head_append] at hx
      exact TokenList.head_append_all_words_32 ts hwf x hx
  | .DynSeq ts, hwf, off => by
    intro x hx
    simp only [mediate_token, Mediate.head_append, List.mem_singleton] at hx
    rw [hx]; rfl
  | .PackedSeq bs, hwf, off => by
    intro x hx
    simp only [mediate_token, Mediate.head_append, List.mem_singleton] at hx
    rw [hx]; rfl

/-- Every head word of a raw (static) sequence is 32 bytes. -/
theorem TokenList.head_append_all_words_32 : (ts : TokenList) → ts.words_wf = true →
    ∀ x ∈ (mediate_list ts).head_append_all, x.length = 32
  | .nil, hwf => by intro x hx; simp [mediate_list, MediateList.head_append_all] at hx
  | .cons t ts, hwf => by
    intro x hx
    simp only [TokenList.words_wf, Bool.and_eq_true] at hwf
    simp only [mediate_list, MediateList.head_append_all, List.mem_append] at hx
    rcases hx with h | h
    · exact Token.head_words_32 t hwf.1 0 x h
    · exact TokenList.head_append_all_words_32 ts hwf.2 x h

end

mutual

/-- Every tail word emitted for a well-formed token is 32 bytes. -/
theorem Token.tail_words_32 : (t : Token) → t.words_wf = true →
    ∀ x ∈ (mediate_token t).tail_append, x.length = 32
  | .Word w, hwf => by
    intro x hx
    simp [mediate_token, Mediate.tail_append] at hx
  | .FixedSeq ts, hwf => by
    intro x hx
    simp only [mediate_token] at hx
    by_cases hd : (Token.FixedSeq ts).is_dynamic = true
    · simp only [hd, if_pos, Mediate.tail_append, List.mem_append] at hx
      rcases hx with h | h
      · exact TokenList.heads_from_words_32 ts hwf _ x h
      · exact TokenList.tails_all_words_32 ts hwf x h
    · rw [if_neg hd] at hx
      simp [Mediate.tail_append] at hx
  | .DynSeq ts, hwf => by
    intro x hx
    simp only [mediate_token, Mediate.tail_append, List.mem_cons,
      List.mem_append] at hx
    rcases hx with h | h | h
    · rw [h]; rfl
    · exact TokenList.heads_from_words_32 ts hwf _ x h
    · exact TokenList.tails_all_words_32 ts hwf x h
  | .PackedSeq bs, hwf => by
    intro x hx
    simp only [mediate_token, Mediate.tail_append] at hx
    exact pad_bytes_words_length bs x hx

/-- Every head word (at any running offset) of a mediated well-formed list is
32 bytes. -/
theorem TokenList.heads_from_words_32 : (ts : TokenList) → ts.words_wf = true →
    (off : Nat) → ∀ x ∈ heads_from (mediate_list ts) off, x.length = 32
  | .nil, hwf, off => by intro x hx; simp [mediate_list, heads_from] at hx
  | .cons t ts, hwf, off => by
    intro x hx
    simp only [TokenList.words_wf, Bool.and_eq_true] at hwf
    simp only [mediate_list, heads_from, List.mem_append] at hx
    rcases hx with h | h
    · exact Token.head_words_32 t hwf.1 off x h
    · exact TokenList.heads_from_words_32 ts hwf.2 _ x h

/-- Every tail word of a mediated well-formed list is 32 bytes. -/
theorem TokenList.tails_all_words_32 : (ts : TokenList) → ts.words_wf = true →
    ∀ x ∈ (mediate_list ts).tails_all, x.length = 32
  | .nil, hwf => by intro x hx; simp [mediate_list, MediateList.tails_all] at hx
  | .cons t ts, hwf => by
    intro x hx
    simp only [TokenList.words_wf, Bool.and_eq_true] at hwf
    simp only [mediate_list, MediateList.tails_all, List.mem_append] at hx
    rcases hx with h | h
    · exact Token.tail_words_32 t hwf.1 x h
    · exact TokenList.tails_all_words_32 ts hwf.2 x h

end

/-- Flattening words of length 32 gives `32 *` the number of words. -/
theorem flatten_length_32 (ws : List (List Nat))
    (h : ∀ x ∈ ws, x.length = 32) : ws.flatten.length = 32 * ws.length := by
  induction ws with
  | nil => rfl
  | cons w ws ih =>
    rw [List.flatten_cons, List.length_append, h w (List.mem_cons_self w ws),
      ih (fun x hx => h x (List.mem_cons_of_mem w hx)), List.length_cons]
    ring

/-- Flattening words of length 32 gives a length that is a multiple of 32. -/
theorem flatten_length_mod_32 (ws : List (List Nat))
    (h : ∀ x ∈ ws, x.length = 32) : ws.flatten.length % 32 = 0 := by
  rw [flatten_length_32 ws h]
  exact Nat.mul_mod_right 32 ws.length

/-- The encoder output of a well-formed token sequence has a length that is a
multiple of 32. -/
theorem encode_length_mod_32 (tokens : TokenList) (hwf : tokens.words_wf = true) :
    (encode tokens).length % 32 = 0 := by
  apply flatten_length_mod_32
  intro x hx
  simp only [encode_head_tail, encode_head_tail_append, List.mem_append] at hx
  rcases hx with h | h
  · exact TokenList.heads_from_words_32 tokens hwf _ x h
  · exact TokenList.tails_all_words_32 tokens hwf x h

/-! ## Claim C8: decoder offset and extension lemmas -/

/-- The element loop advances the offset by a multiple of 32, provided each
element decode does. -/
theorem decode_elems_mod (f : List Nat → Nat → Except Error DecodeResult)
    (hf : ∀ (d : List Nat) (o : Nat) (r : DecodeResult),
      f d o = .ok r → r.new_offset % 32 = o % 32) :
    ∀ (n : Nat) (data : List Nat) (off : Nat) (res : TokenList × Nat),
      decode_elems f data off n = .ok res → res.2 % 32 = off % 32 := by
  intro n
  induction n with
  | zero =>
    intro data off res h
    cases h
    rfl
  | succ k ih =>
    intro data off res h
    simp only [decode_elems, except_bind_eq_ok, Except.ok.injEq] at h
    obtain ⟨a, ha, b, hb, hres⟩ := h
    subst hres
    exact (ih data a.new_offset b hb).trans (hf data off a ha)

mutual

/-- `decode_param` (in either mode) advances the offset by a multiple of
32. -/
theorem decode_param_mod : (param : ParamType) → (data : List Nat) →
    (off : Nat) → (v : Bool) → (r : DecodeResult) →
    decode_param param data off v = .ok r → r.new_offset % 32 = off % 32
  | .Address, data, off, v, r => by
    intro h
    cases v with
    | false =>
      simp only [decode_param, Bool.false_eq_true, if_false, except_pure,
        except_ok_bind, except_bind_eq_ok, Except.ok.injEq] at h
      obtain ⟨a, _, hres⟩ := h
      subst hres
      exact Nat.add_mod_right off 32
    | true =>
      simp only [decode_param, if_true, except_bind_eq_ok, Except.ok.injEq] at h
      obtain ⟨a, _, u, _, hres⟩ := h
      subst hres
      exact Nat.add_mod_right off 32
  | .Int _, data, off, v, r => by
    intro h
    simp only [decode_param, except_bind_eq_ok, Except.ok.injEq] at h
    obtain ⟨a, _, hres⟩ := h
    subst hres
    exact Nat.add_mod_right off 32
  | .Uint _, data, off, v, r => by
    intro h
    simp only [decode_param, except_bind_eq_ok, Except.ok.injEq] at h
    obtain ⟨a, _, hres⟩ := h
    subst hres
    exact Nat.add_mod_right off 32
  | .Bool, data, off, v, r => by
    intro h
    simp only [decode_param, except_bind_eq_ok, Except.ok.injEq] at h
    obtain ⟨a, _, u, _, hres⟩ := h
    subst hres
    exact Nat.add_mod_right off 32
  | .FixedBytes _, data, off, v, r => by
    intro h
    simp only [decode_param, except_bind_eq_ok, Except.ok.injEq] at h
    obtain ⟨a, _, u, _, hres⟩ := h
    subst hres
    exact Nat.add_mod_right off 32
  | .Bytes, data, off, v, r => by
    intro h
    simp only [decode_param, except_bind_eq_ok, Except.ok.injEq] at h
    obtain ⟨w1, _, doff, _, w2, _, len, _, bs, _, hres⟩ := h
    subst hres
    exact Nat.add_mod_right off 32
  | .String, data, off, v, r => by
    intro h
    simp only [decode_param, except_bind_eq_ok, Except.ok.injEq] at h
    obtain ⟨w1, _, doff, _, w2, _, len, _, bs, _, hres⟩ := h
    subst hres
    exact Nat.add_mod_right off 32
  | .Array t, data, off, v, r => by
    intro h
    simp only [decode_param, except_bind_eq_ok, Except.ok.injEq] at h
    obtain ⟨w1, _, lo, _, w2, _, len, _, res1, _, hres⟩ := h
    subst hres
    exact Nat.add_mod_right off 32
  | .FixedArray t len, data, off, v, r => by
    intro h
    simp only [decode_param] at h
    by_cases hd : (ParamType.FixedArray t len).is_dynamic = true
    · simp only [hd, if_pos] at h
      simp only [except_bind_eq_ok, Except.ok.injEq] at h
      obtain ⟨w1, _, io, _, h2⟩ := h
      by_cases hio : io > data.length
      · simp [hio] at h2
      · simp only [hio, if_false, except_bind_eq_ok, Except.ok.injEq] at h2
        obtain ⟨res1, _, hres⟩ := h2
        subst hres
        exact Nat.add_mod_right off 32
    · rw [if_neg hd] at h
      simp only [except_bind_eq_ok, Except.ok.injEq] at h
      obtain ⟨res1, hres1, hres⟩ := h
      subst hres
      exact decode_elems_mod _ (fun d o r2 h2 => decode_param_mod t d o v r2 h2)
        len data off res1 hres1
  | .Tuple ts, data, off, v, r => by
    intro h
    simp only [decode_param] at h
    by_cases hd : (ParamType.Tuple ts).is_dynamic = true
    · simp only [hd, if_pos] at h
      simp only [except_bind_eq_ok, Except.ok.injEq] at h
      obtain ⟨w1, _, io, _, h2⟩ := h
      by_cases hio : io > data.length
      · simp [hio] at h2
      · simp only [hio, if_false, except_bind_eq_ok, Except.ok.injEq] at h2
        obtain ⟨res1, _, hres⟩ := h2
        subst hres
        exact Nat.add_mod_right off 32
    · rw [if_neg hd] at h
      simp only [except_bind_eq_ok, Except.ok.injEq] at h
      obtain ⟨res1, hres1, hres⟩ := h
      subst hres
      exact decode_seq_mod ts data off v res1 hres1

/-- The sequence loop advances the offset by a multiple of 32. -/
theorem decode_seq_mod : (ts : ParamTypeList) → (data : List Nat) →
    (off : Nat) → (v : Bool) → (res : TokenList × Nat) →
    decode_seq ts data off v = .ok res → res.2 % 32 = off % 32
  | .nil, data, off, v, res => by
    intro h
    cases h
    rfl
  | .cons p rest, data, off, v, res => by
    intro h
    simp only [decode_seq, except_bind_eq_ok, Except.ok.injEq] at h
    obtain ⟨a, ha, b, hb, hres⟩ := h
    subst hres
    exact (decode_seq_mod rest data a.new_offset v b hb).trans
      (decode_param_mod p data off v a ha)

end

/-- A successful word peek is preserved on an extended buffer. -/
theorem peek_32_bytes_extend {data : List Nat} (extra : List Nat) {off : Nat}
    {out : List Nat} (h : peek_32_bytes data off = .ok out) :
    peek_32_bytes (data ++ extra) off = .ok out :=
  peek_extend extra h

/-- A successful word peek implies the word is in bounds. -/
theorem peek_32_bytes_ok_bound {data : List Nat} {off : Nat} {out : List Nat}
    (h : peek_32_bytes data off = .ok out) : off + 32 ≤ data.length :=
  peek_ok_bound h

/-- The element loop is preserved on an extended buffer, provided each
element decode is. -/
theorem decode_elems_extend (f : List Nat → Nat → Except Error DecodeResult)
    (hf : ∀ (d e : List Nat) (o : Nat) (r : DecodeResult),
      f d o = .ok r → f (d ++ e) o = .ok r) :
    ∀ (n : Nat) (data extra : List Nat) (off : Nat) (res : TokenList × Nat),
      decode_elems f data off n = .ok res →
      decode_elems f (data ++ extra) off n = .ok res := by
  intro n
  induction n with
  | zero => intro data extra off res h; exact h
  | succ k ih =>
    intro data extra off res h
    simp only [decode_elems, except_bind_eq_ok, Except.ok.injEq] at h ⊢
    obtain ⟨a, ha, b, hb, hres⟩ := h
    exact ⟨a, hf data extra off a ha, b, ih data extra a.new_offset b hb, hres⟩

mutual

/-- Appending bytes to the buffer does not change a successful lenient
`decode_param`: all reads are in bounds of the original buffer. -/
theorem decode_param_extend : (param : ParamType) → (data extra : List Nat) →
    (off : Nat) → (r : DecodeResult) →
    decode_param param data off false = .ok r →
    decode_param param (data ++ extra) off false = .ok r
  | .Address, data, extra, off, r => by
    intro h
    simp only [decode_param, Bool.false_eq_true, if_false, except_pure,
      except_ok_bind, except_bind_eq_ok, Except.ok.injEq] at h ⊢
    obtain ⟨a, ha, hres⟩ := h
    exact ⟨a, peek_32_bytes_extend extra ha, hres⟩
  | .Int _, data, extra, off, r => by
    intro h
    simp only [decode_param, except_bind_eq_ok, Except.ok.injEq] at h ⊢
    obtain ⟨a, ha, hres⟩ := h
    exact ⟨a, peek_32_bytes_extend extra ha, hres⟩
  | .Uint _, data, extra, off, r => by
    intro h
    simp only [decode_param, except_bind_eq_ok, Except.ok.injEq] at h ⊢
    obtain ⟨a, ha, hres⟩ := h
    exact ⟨a, peek_32_bytes_extend extra ha, hres⟩
  | .Bool, data, extra, off, r => by
    intro h
    simp only [decode_param, except_bind_eq_ok, Except.ok.injEq] at h ⊢
    obtain ⟨a, ha, u, hu, hres⟩ := h
    exact ⟨a, peek_32_bytes_extend extra ha, u, hu, hres⟩
  | .FixedBytes _, data, extra, off, r => by
    intro h
    simp only [decode_param, except_bind_eq_ok, Except.ok.injEq] at h ⊢
    obtain ⟨a, ha, u, hu, hres⟩ := h
    exact ⟨a, peek_32_bytes_extend extra ha, u, hu, hres⟩
  | .Bytes, data, extra, off, r => by
    intro h
    simp only [decode_param, except_bind_eq_ok, Except.ok.injEq] at h ⊢
    obtain ⟨w1, hw1, doff, hdoff, w2, hw2, len, hlen, bs, hbs, hres⟩ := h
    exact ⟨w1, peek_32_bytes_extend extra hw1, doff, hdoff, w2,
      peek_32_bytes_extend extra hw2, len, hlen, bs, take_bytes_extend extra hbs,
      hres⟩
  | .String, data, extra, off, r => by
    intro h
    simp only [decode_param, except_bind_eq_ok, Except.ok.injEq] at h ⊢
    obtain ⟨w1, hw1, doff, hdoff, w2, hw2, len, hlen, bs, hbs, hres⟩ := h
    exact ⟨w1, peek_32_bytes_extend extra hw1, doff, hdoff, w2,
      peek_32_bytes_extend extra hw2, len, hlen, bs, take_bytes_extend extra hbs,
      hres⟩
  | .Array t, data, extra, off, r => by
    intro h
    simp only [decode_param, except_bind_eq_ok, Except.ok.injEq] at h ⊢
    obtain ⟨w1, hw1, lo, hlo, w2, hw2, len, hlen, res1, hres1, hres⟩ := h
    have hb2 : lo + 32 ≤ data.length := peek_32_bytes_ok_bound hw2
    refine ⟨w1, peek_32_bytes_extend extra hw1, lo, hlo, w2,
      peek_32_bytes_extend extra hw2, len, hlen, res1, ?_, hres⟩
    rw [List.drop_append_of_le_length (by omega)]
    exact decode_elems_extend _
      (fun d e o r2 h2 => decode_param_extend t d e o r2 h2)
      len _ extra 0 res1 hres1
  | .FixedArray t len, data, extra, off, r => by
    intro h
    simp only [decode_param] at h ⊢
    by_cases hd : (ParamType.FixedArray t len).is_dynamic = true
    · simp only [hd, if_pos] at h ⊢
      simp only [except_bind_eq_ok, Except.ok.injEq] at h ⊢
      obtain ⟨w1, hw1, io, hio, h2⟩ := h
      by_cases hiog : io > data.length
      · simp [hiog] at h2
      · rw [if_neg hiog] at h2
        simp only [except_bind_eq_ok, Except.ok.injEq] at h2
        obtain ⟨res1, hres1, hres⟩ := h2
        refine ⟨w1, peek_32_bytes_extend extra hw1, io, hio, ?_⟩
        rw [if_neg (by simp [List.length_append]; omega)]
        simp only [except_bind_eq_ok, Except.ok.injEq]
        refine ⟨res1, ?_, hres⟩
        rw [List.drop_append_of_le_length (by omega)]
        exact decode_elems_extend _
          (fun d e o r2 h2 => decode_param_extend t d e o r2 h2)
          len _ extra 0 res1 hres1
    · rw [if_neg hd] at h ⊢
      simp only [except_bind_eq_ok, Except.ok.injEq] at h ⊢
      obtain ⟨res1, hres1, hres⟩ := h
      refine ⟨res1, ?_, hres⟩
      exact decode_elems_extend _
        (fun d e o r2 h2 => decode_param_extend t d e o r2 h2)
        len data extra off res1 hres1
  | .Tuple ts, data, extra, off, r => by
    intro h
    simp only [decode_param] at h ⊢
    by_cases hd : (ParamType.Tuple ts).is_dynamic = true
    · simp only [hd, if_pos] at h ⊢
      simp only [except_bind_eq_ok, Except.ok.injEq] at h ⊢
      obtain ⟨w1, hw1, io, hio, h2⟩ := h
      by_cases hiog : io > data.length
      · simp [hiog] at h2
      · rw [if_neg hiog] at h2
        simp only [except_bind_eq_ok, Except.ok.injEq] at h2
        obtain ⟨res1, hres1, hres⟩ := h2
        refine ⟨w1, peek_32_bytes_extend extra hw1, io, hio, ?_⟩
        rw [if_neg (by simp [List.length_append]; omega)]
        simp only [except_bind_eq_ok, Except.ok.injEq]
        refine ⟨res1, ?_, hres⟩
        rw [List.drop_append_of_le_length (by omega)]
        exact decode_seq_extend ts _ extra 0 res1 hres1
    · rw [if_neg hd] at h ⊢
      simp only [except_bind_eq_ok, Except.ok.injEq] at h ⊢
      obtain ⟨res1, hres1, hres⟩ := h
      exact ⟨res1, decode_seq_extend ts data extra off res1 hres1, hres⟩

/-- Appending bytes to the buffer does not change a successful lenient
sequence decode. -/
theorem decode_seq_extend : (ts : ParamTypeList) → (data extra : List Nat) →
    (off : Nat) → (res : TokenList × Nat) →
    decode_seq ts data off false = .ok res →
    decode_seq ts (data ++ extra) off false = .ok res
  | .nil, data, extra, off, res => by
    intro h
    exact h
  | .cons p rest, data, extra, off, res => by
    intro h
    simp only [decode_seq, except_bind_eq_ok, Except.ok.injEq] at h ⊢
    obtain ⟨a, ha, b, hb, hres⟩ := h
    exact ⟨a, decode_param_extend p data extra off a ha, b,
      decode_seq_extend rest data extra a.new_offset b hb, hres⟩

end

/-- Appending bytes to the buffer does not change a successful lenient
`decode`. -/
theorem decode_extend (types : ParamTypeList) (data extra : List Nat)
    (r : TokenList) (h : decode types data = .ok r) :
    decode types (data ++ extra) = .ok r := by
  simp only [decode, decode_impl, Bool.false_and, Bool.false_eq_true, if_false,
    except_map_eq_ok] at h ⊢
  obtain ⟨a, ha, hr⟩ := h
  by_cases hg : (!(types.all ParamType.is_empty_bytes_valid_encoding) &&
      data.isEmpty) = true
  · rw [if_pos hg] at ha; cases ha
  · rw [if_neg hg] at ha
    simp only [except_bind_eq_ok, Except.ok.injEq] at ha
    obtain ⟨res, hres, hra⟩ := ha
    have hg2 : (!(types.all ParamType.is_empty_bytes_valid_encoding) &&
        (data ++ extra).isEmpty) = false := by
      cases hall : types.all ParamType.is_empty_bytes_valid_encoding with
      | true => simp [hall]
      | false =>
        have hde : data.isEmpty = false := by
          cases hde : data.isEmpty
          · rfl
          · exact absurd (by simp [hall, hde]) hg
        have hde2 : (data ++ extra).isEmpty = false := by
          cases data with
          | nil => simp [List.isEmpty] at hde
          | cons x l => rfl
        simp [hall, hde2]
    rw [if_neg (by simp [hg2])]
    simp only [except_bind_eq_ok, Except.ok.injEq]
    exact ⟨a, ⟨res, decode_seq_extend types data extra 0 res hres, hra⟩, hr⟩

/-- On a nonempty buffer whose length is not a multiple of 32,
`decode_validate` always fails: the final strict length check compares the
buffer length against an offset that is a multiple of 32. -/
theorem decode_validate_len_fail (types : ParamTypeList) (data : List Nat)
    (hmod : data.length % 32 ≠ 0) (hne : data.isEmpty = false) :
    ∃ e, decode_validate types data = .error e := by
  simp only [decode_validate, decode_impl, hne, Bool.and_false,
    Bool.false_eq_true, if_false]
  cases hseq : decode_seq types data 0 true with
  | error e => exact ⟨e, rfl⟩
  | ok res =>
    have hm := decode_seq_mod types data 0 true res hseq
    have hneq : res.2 ≠ data.length := by omega
    refine ⟨.InvalidData, ?_⟩
    simp [bne_iff_ne, hneq]

/-- Claim C8: appending a trailing byte to an encoder output leaves lenient
`decode` unchanged while `decode_validate` fails (the extended length is no
longer a multiple of 32, so the strict final length check cannot hold); and
the concrete scenario: lenient `decode` of an Address from a 64-byte buffer
of two back-to-back words succeeds reading only the first word while
`decode_validate` on the same buffer fails with `InvalidData`. -/
theorem C8_trailing_byte (types : ParamTypeList) (tokens r : TokenList) (b : Nat)
    (hwf : tokens.words_wf = true)
    (hd : decode types (encode tokens) = .ok r) :
    decode types (encode tokens ++ [b]) = .ok r ∧
    (∃ e, decode_validate types (encode tokens ++ [b]) = .error e) ∧
    decode (.cons .Address .nil) (List.replicate 64 0) =
      .ok (.cons (.Word (List.replicate 32 0)) .nil) ∧
    decode_validate (.cons .Address .nil) (List.replicate 64 0) =
      .error .InvalidData := by
  refine ⟨decode_extend types _ [b] r hd, ?_, by rfl, by rfl⟩
  apply decode_validate_len_fail
  · have := encode_length_mod_32 tokens hwf
    simp only [List.length_append, List.length_cons, List.length_nil]
    omega
  · cases henc : encode tokens with
    | nil => rfl
    | cons x l => rfl

/-- Witness for C8 at the concrete sequence `[Address]` with the zero
address word and trailing byte 7. -/
theorem C8_witness :
    ((TokenList.cons (.Word (List.replicate 32 0)) .nil).words_wf = true ∧
      decode (.cons .Address .nil)
        (encode (.cons (.Word (List.replicate 32 0)) .nil)) =
        .ok (.cons (.Word (List.replicate 32 0)) .nil)) ∧
    (decode (.cons .Address .nil)
        (encode (.cons (.Word (List.replicate 32 0)) .nil) ++ [7]) =
        .ok (.cons (.Word (List.replicate 32 0)) .nil) ∧
      (∃ e, decode_validate (.cons .Address .nil)
        (encode (.cons (.Word (List.replicate 32 0)) .nil) ++ [7]) = .error e) ∧
      decode (.cons .Address .nil) (List.replicate 64 0) =
        .ok (.cons (.Word (List.replicate 32 0)) .nil) ∧
      decode_validate (.cons .Address .nil) (List.replicate 64 0) =
        .error .InvalidData) :=
  ⟨⟨by rfl, by rfl⟩,
    C8_trailing_byte (.cons .Address .nil) (.cons (.Word (List.replicate 32 0)) .nil)
      (.cons (.Word (List.replicate 32 0)) .nil) 7 (by rfl) (by rfl)⟩

/-! ## Claim C1: static canonical round-trip -/


theorem except_is_ok_unit {ε : Type} {x : Except ε Unit}
    (h : except_is_ok x = true) : x = .ok () := by
  cases x with
  | ok u => cases u; rfl
  | error e => simp [except_is_ok] at h



mutual

/-- A statically well-formed token is static. -/
theorem static_wf_not_dynamic : (p : ParamType) → (t : Token) →
    static_wf p t = true → t.is_dynamic = false
  | p, .Word w, h => rfl
  | p, .FixedSeq ts, h => by
    cases p with
    | FixedArray t n =>
      simp only [static_wf, Bool.and_eq_true] at h
      simp only [Token.is_dynamic]
      exact static_wf_uniform_not_dynamic t ts h.2
    | Tuple ps =>
      simp only [static_wf, Bool.and_eq_true] at h
      simp only [Token.is_dynamic]
      exact static_wf_pairs_not_dynamic ps ts h.2
    | Address => simp [static_wf] at h
    | Int n => simp [static_wf] at h
    | Uint n => simp [static_wf] at h
    | Bool => simp [static_wf] at h
    | FixedBytes n => simp [static_wf] at h
    | Bytes => simp [static_wf] at h
    | String => simp [static_wf] at h
    | Array t => simp [static_wf] at h
  | p, .DynSeq ts, h => by cases p <;> simp [static_wf] at h
  | p, .PackedSeq bs, h => by cases p <;> simp [static_wf] at h

/-- A statically well-formed uniform token list is static. -/
theorem static_wf_uniform_not_dynamic : (t : ParamType) → (ts : TokenList) →
    static_wf_uniform t ts = true → ts.any_dynamic = false
  | t, .nil, h => rfl
  | t, .cons tok toks, h => by
    simp only [static_wf_uniform, Bool.and_eq_true] at h
    simp only [TokenList.any_dynamic, Bool.or_eq_false_iff]
    exact ⟨static_wf_not_dynamic t tok h.1, static_wf_uniform_not_dynamic t toks h.2⟩

/-- A statically well-formed paired token list is static. -/
theorem static_wf_pairs_not_dynamic : (ps : ParamTypeList) → (ts : TokenList) →
    static_wf_pairs ps ts = true → ts.any_dynamic = false
  | .nil, .nil, h => rfl
  | .cons p ps, .cons t ts, h => by
    simp only [static_wf_pairs, Bool.and_eq_true] at h
    simp only [TokenList.any_dynamic, Bool.or_eq_false_iff]
    exact ⟨static_wf_not_dynamic p t h.1, static_wf_pairs_not_dynamic ps ts h.2⟩

end

mutual

/-- The head words of a static token flatten to its raw words, for any
suffix offset (no offset word is ever emitted). -/
theorem static_head_append_flatten : (t : Token) → t.is_dynamic = false →
    (off : Nat) → ((mediate_token t).head_append off).flatten = static_words t
  | .Word w, h, off => by
    simp [mediate_token, Mediate.head_append, encode_token_words, static_words]
  | .FixedSeq ts, h, off => by
    simp only [Token.is_dynamic] at h
    simp only [mediate_token, Token.is_dynamic, h, Bool.false_eq_true, if_false,
      Mediate.head_append, static_words]
    exact static_head_append_all_flatten ts h
  | .DynSeq ts, h, off => by simp [Token.is_dynamic] at h
  | .PackedSeq bs, h, off => by simp [Token.is_dynamic] at h

/-- Head words of a static token list flatten to its raw words. -/
theorem static_head_append_all_flatten : (ts : TokenList) →
    ts.any_dynamic = false →
    ((mediate_list ts).head_append_all).flatten = static_words_list ts
  | .nil, h => rfl
  | .cons t ts, h => by
    simp only [TokenList.any_dynamic, Bool.or_eq_false_iff] at h
    simp only [mediate_list, MediateList.head_append_all, List.flatten_append,
      static_words_list]
    rw [static_head_append_flatten t h.1 0, static_head_append_all_flatten ts h.2]

end

/-- A static token has an empty tail. -/
theorem static_tail_append (t : Token) (h : t.is_dynamic = false) :
    (mediate_token t).tail_append = [] := by
  cases t with
  | Word w => rfl
  | FixedSeq ts =>
    simp only [Token.is_dynamic] at h
    simp [mediate_token, Token.is_dynamic, h, Mediate.tail_append]
  | DynSeq ts => simp [Token.is_dynamic] at h
  | PackedSeq bs => simp [Token.is_dynamic] at h

/-- A static token list has no tail words. -/
theorem static_tails_all : (ts : TokenList) → ts.any_dynamic = false →
    (mediate_list ts).tails_all = []
  | .nil, h => rfl
  | .cons t ts, h => by
    simp only [TokenList.any_dynamic, Bool.or_eq_false_iff] at h
    simp only [mediate_list, MediateList.tails_all,
      static_tail_append t h.1, List.nil_append]
    exact static_tails_all ts h.2

/-- Heads emitted at any running offset for a static token list flatten to
its raw words. -/
theorem static_heads_from_flatten : (ts : TokenList) → ts.any_dynamic = false →
    (off : Nat) → (heads_from (mediate_list ts) off).flatten = static_words_list ts
  | .nil, h, off => rfl
  | .cons t ts, h, off => by
    simp only [TokenList.any_dynamic, Bool.or_eq_false_iff] at h
    simp only [mediate_list, heads_from, List.flatten_append, static_words_list]
    rw [static_head_append_flatten t h.1 off, static_heads_from_flatten ts h.2 _]

/-- The encoder output of a static token sequence is exactly the
concatenation of its raw words. -/
theorem encode_static (tokens : TokenList) (h : tokens.any_dynamic = false) :
    encode tokens = static_words_list tokens := by
  simp only [encode, encode_head_tail, encode_head_tail_append,
    List.flatten_append, static_tails_all tokens h,
    static_heads_from_flatten tokens h _, List.flatten_nil, List.append_nil]

/-- Reading one word just past a prefix returns that word. -/
theorem peek_32_bytes_pre (pre w post : List Nat) (h : w.length = 32) :
    peek_32_bytes (pre ++ (w ++ post)) pre.length = .ok w := by
  have hlen : (pre ++ (w ++ post)).length = pre.length + (32 + post.length) := by
    simp [List.length_append, h]
  rw [peek_32_bytes, peek, if_neg (by omega), List.drop_left, ← h, List.take_left]

mutual

/-- Decoding a statically well-formed token from its raw words embedded at
any position succeeds in both modes, returns the token, and advances the
offset exactly past its words. -/
theorem static_decode_param : (p : ParamType) → (t : Token) →
    static_wf p t = true → (pre post : List Nat) → (v : Bool) →
    decode_param p (pre ++ (static_words t ++ post)) pre.length v =
      .ok ⟨t, pre.length + (static_words t).length⟩
  | .Address, .Word w, hwf, pre, post, v => by
    simp only [static_wf, Bool.and_eq_true, beq_iff_eq] at hwf
    have hpeek := peek_32_bytes_pre pre w post hwf.1
    cases v with
    | false =>
      simp only [decode_param, static_words, hpeek, except_ok_bind,
        Bool.false_eq_true, if_false, except_pure, hwf.1]
    | true =>
      have hcz : check_zeroes (w.take 12) = .ok () := by
        simp [check_zeroes, hwf.2]
      simp only [decode_param, static_words, hpeek, except_ok_bind, if_true,
        hcz, hwf.1]
  | .Int n, .Word w, hwf, pre, post, v => by
    simp only [static_wf, beq_iff_eq] at hwf
    have hpeek := peek_32_bytes_pre pre w post hwf
    simp only [decode_param, static_words, hpeek, except_ok_bind, hwf]
  | .Uint n, .Word w, hwf, pre, post, v => by
    simp only [static_wf, beq_iff_eq] at hwf
    have hpeek := peek_32_bytes_pre pre w post hwf
    simp only [decode_param, static_words, hpeek, except_ok_bind, hwf]
  | .Bool, .Word w, hwf, pre, post, v => by
    simp only [static_wf, Bool.and_eq_true, beq_iff_eq] at hwf
    have hpeek := peek_32_bytes_pre pre w post hwf.1
    have hcb : check_bool w = .ok () := by
      simp [check_bool, check_zeroes, hwf.2]
    simp only [decode_param, static_words, hpeek, except_ok_bind, hcb, hwf.1]
  | .FixedBytes n, .Word w, hwf, pre, post, v => by
    simp only [static_wf, Bool.and_eq_true, beq_iff_eq] at hwf
    have hpeek := peek_32_bytes_pre pre w post hwf.1
    have hcfb : check_fixed_bytes w n = .ok () := except_is_ok_unit hwf.2
    simp only [decode_param, static_words, hpeek, except_ok_bind, hcfb, hwf.1]
  | .FixedArray tp n, .FixedSeq ts, hwf, pre, post, v => by
    simp only [static_wf, Bool.and_eq_true, Bool.not_eq_true', beq_iff_eq] at hwf
    obtain ⟨⟨hdyn, hlen⟩, huni⟩ := hwf
    have h2 := static_decode_uniform tp ts huni pre post v
    simp only [decode_param, ParamType.is_dynamic, hdyn, Bool.false_eq_true,
      if_false, static_words, ← hlen, h2, except_ok_bind]
  | .Tuple ps, .FixedSeq ts, hwf, pre, post, v => by
    simp only [static_wf, Bool.and_eq_true, Bool.not_eq_true'] at hwf
    obtain ⟨hdyn, hpairs⟩ := hwf
    have h2 := static_decode_pairs ps ts hpairs pre post v
    simp only [decode_param, ParamType.is_dynamic, hdyn, Bool.false_eq_true,
      if_false, static_words, h2, except_ok_bind]

  | .Bytes, .Word w, hwf, pre, post, v => by simp [static_wf] at hwf
  | .String, .Word w, hwf, pre, post, v => by simp [static_wf] at hwf
  | .Array tp, .Word w, hwf, pre, post, v => by simp [static_wf] at hwf
  | .FixedArray tp n, .Word w, hwf, pre, post, v => by simp [static_wf] at hwf
  | .Tuple ps, .Word w, hwf, pre, post, v => by simp [static_wf] at hwf
  | .Address, .FixedSeq ts, hwf, pre, post, v => by simp [static_wf] at hwf
  | .Int n, .FixedSeq ts, hwf, pre, post, v => by simp [static_wf] at hwf
  | .Uint n, .FixedSeq ts, hwf, pre, post, v => by simp [static_wf] at hwf
  | .Bool, .FixedSeq ts, hwf, pre, post, v => by simp [static_wf] at hwf
  | .FixedBytes n, .FixedSeq ts, hwf, pre, post, v => by simp [static_wf] at hwf
  | .Bytes, .FixedSeq ts, hwf, pre, post, v => by simp [static_wf] at hwf
  | .String, .FixedSeq ts, hwf, pre, post, v => by simp [static_wf] at hwf
  | .Array tp, .FixedSeq ts, hwf, pre, post, v => by simp [static_wf] at hwf
  | p, .DynSeq ts, hwf, pre, post, v => by cases p <;> simp [static_wf] at hwf
  | p, .PackedSeq bs, hwf, pre, post, v => by cases p <;> simp [static_wf] at hwf

/-- Decoding a uniform list of statically well-formed tokens from their
concatenated raw words embedded at any position succeeds and advances past
all of them. -/
theorem static_decode_uniform : (tp : ParamType) → (ts : TokenList) →
    static_wf_uniform tp ts = true → (pre post : List Nat) → (v : Bool) →
    decode_elems (fun d o => decode_param tp d o v)
      (pre ++ (static_words_list ts ++ post)) pre.length ts.length =
      .ok (ts, pre.length + (static_words_list ts).length)
  | tp, .nil, hwf, pre, post, v => by
    simp [TokenList.length, decode_elems, static_words_list]
  | tp, .cons t ts, hwf, pre, post, v => by
    simp only [static_wf_uniform, Bool.and_eq_true] at hwf
    have h1 := static_decode_param tp t hwf.1 pre (static_words_list ts ++ post) v
    have h2 := static_decode_uniform tp ts hwf.2 (pre ++ static_words t) post v
    rw [List.append_assoc] at h2
    simp only [List.length_append] at h2
    simp only [TokenList.length, static_words_list, decode_elems,
      List.append_assoc, h1, except_ok_bind, h2, List.length_append,
      Nat.add_assoc]

/-- Decoding a pairwise statically well-formed sequence from its
concatenated raw words embedded at any position succeeds and advances past
all of them. -/
theorem static_decode_pairs : (ps : ParamTypeList) → (ts : TokenList) →
    static_wf_pairs ps ts = true → (pre post : List Nat) → (v : Bool) →
    decode_seq ps (pre ++ (static_words_list ts ++ post)) pre.length v =
      .ok (ts, pre.length + (static_words_list ts).length)
  | .nil, .nil, hwf, pre, post, v => by
    simp [decode_seq, static_words_list]
  | .nil, .cons t ts, hwf, pre, post, v => by simp [static_wf_pairs] at hwf
  | .cons p ps, .nil, hwf, pre, post, v => by simp [static_wf_pairs] at hwf
  | .cons p ps, .cons t ts, hwf, pre, post, v => by
    simp only [static_wf_pairs, Bool.and_eq_true] at hwf
    have h1 := static_decode_param p t hwf.1 pre (static_words_list ts ++ post) v
    have h2 := static_decode_pairs ps ts hwf.2 (pre ++ static_words t) post v
    rw [List.append_assoc] at h2
    simp only [List.length_append] at h2
    simp only [static_words_list, decode_seq, List.append_assoc, h1,
      except_ok_bind, h2, List.length_append, Nat.add_assoc]

end

/-- Claim C1 counterexample: the token sequence `[PackedSeq []]` is
well-formed for the type shape `[Bytes]` (`types_check` holds), yet on the
buffer produced by `encode`, `decode_validate` FAILS with `InvalidData`
while lenient `decode` succeeds: the strict final check of `decode_impl`
compares the buffer length with the head offset, which for any dynamic
top-level type stops after the offset word. -/
theorem C1_counterexample :
    Token.types_check (.cons (.PackedSeq []) .nil) (.cons .Bytes .nil) = true ∧
    decode (.cons .Bytes .nil) (encode (.cons (.PackedSeq []) .nil)) =
      .ok (.cons (.PackedSeq []) .nil) ∧
    decode_validate (.cons .Bytes .nil) (encode (.cons (.PackedSeq []) .nil)) =
      .error .InvalidData := by
  refine ⟨rfl, rfl, rfl⟩

/-- Claim C1 as amended: for every token sequence that is statically
well-formed for its (all static) type shapes — word tokens of 32 bytes
passing the validating checks of the decoder, and sequences of exact static
shape — and whose encoding is non-empty, `decode_validate` on the exact
encoder output succeeds and returns the same token tree as `decode`,
namely the original tokens. -/
theorem C1_static_roundtrip (types : ParamTypeList) (tokens : TokenList)
    (hwf : static_wf_pairs types tokens = true)
    (hne : encode tokens ≠ []) :
    decode_validate types (encode tokens) = .ok tokens ∧
    decode types (encode tokens) = .ok tokens := by
  have hstat : tokens.any_dynamic = false :=
    static_wf_pairs_not_dynamic types tokens hwf
  have henc : encode tokens = static_words_list tokens := encode_static tokens hstat
  have hempty : (encode tokens).isEmpty = false := by
    cases hc : encode tokens with
    | nil => exact absurd hc hne
    | cons x l => rfl
  rw [henc] at hempty
  constructor
  · have h1 := static_decode_pairs types tokens hwf [] [] true
    simp only [List.nil_append, List.append_nil, List.length_nil,
      Nat.zero_add] at h1
    simp only [decode_validate, decode_impl, hempty, Bool.and_false,
      Bool.false_eq_true, if_false, henc, h1, except_ok_bind, Bool.true_and,
      bne_self_eq_false, except_map_ok]
  · have h1 := static_decode_pairs types tokens hwf [] [] false
    simp only [List.nil_append, List.append_nil, List.length_nil,
      Nat.zero_add] at h1
    simp only [decode, decode_impl, hempty, Bool.and_false, Bool.false_and,
      Bool.false_eq_true, if_false, henc, h1, except_ok_bind, except_map_ok]

/-- Witness for the amended C1 at the concrete static sequence
`([Address, Bool], [zero address word, true word])`. -/
theorem C1_witness :
    (static_wf_pairs (.cons .Address (.cons .Bool .nil))
        (.cons (.Word (List.replicate 32 0))
          (.cons (.Word (List.replicate 31 0 ++ [1])) .nil)) = true ∧
      encode (.cons (.Word (List.replicate 32 0))
        (.cons (.Word (List.replicate 31 0 ++ [1])) .nil)) ≠ []) ∧
    (decode_validate (.cons .Address (.cons .Bool .nil))
        (encode (.cons (.Word (List.replicate 32 0))
          (.cons (.Word (List.replicate 31 0 ++ [1])) .nil))) =
        .ok (.cons (.Word (List.replicate 32 0))
          (.cons (.Word (List.replicate 31 0 ++ [1])) .nil)) ∧
      decode (.cons .Address (.cons .Bool .nil))
        (encode (.cons (.Word (List.replicate 32 0))
          (.cons (.Word (List.replicate 31 0 ++ [1])) .nil))) =
        .ok (.cons (.Word (List.replicate 32 0))
          (.cons (.Word (List.replicate 31 0 ++ [1])) .nil))) :=
  ⟨⟨by decide, by decide⟩,
    C1_static_roundtrip (.cons .Address (.cons .Bool .nil))
      (.cons (.Word (List.replicate 32 0))
        (.cons (.Word (List.replicate 31 0 ++ [1])) .nil))
      (by decide) (by decide)⟩
